import Mathlib

/-!
Verification of the TACOS collective-communication synthesizer.

This file gives a shallow embedding, in Lean 4, of the core of the TACOS
repository: the topology link-delay computation (`Topology`), the greedy
synthesizer (`greedy_synthesizer.cpp`), the beam synthesizer
(`beam_synthesizer.cpp`), the per-NPU result bookkeeping (`npu_result.cpp`)
and the collective condition accessors (`collective.cpp`), together with
theorems settling the specification claims about them.

Modelling conventions:
* `NpuID`, `ChunkID` and `Time` are `Nat`; `StartTime` is `Int` (the C++
  `StartTime` is a separate signed type used only for `currentTime - linkDelay`).
* C++ `std::map<NpuID, std::set<ChunkID>>` collective conditions are modelled
  as association lists `List (Nat × List Nat)`; `std::set` iteration order is
  the list order (ascending in actual runs).
* The working precondition, whose key set always contains every NPU (the
  `Collective` constructor seeds every NPU with an empty set), is modelled as
  a total function `Nat → List Nat`.
* Randomness (`std::mt19937` + `std::uniform_int_distribution`) is modelled by
  an oracle `o : Nat → Nat`; the n-th draw over a range of size `k` yields
  `o n % k`.  Every index in range is reachable, so properties quantified over
  all oracles cover all behaviours of the C++ random engine, and concrete
  oracles give concrete runs.
* C++ `double` arithmetic in `Topology::computeLinkDelay` is modelled as
  IEEE-754 binary64: every value is an unsigned dyadic `m · 2^e` with a 53-bit
  mantissa, every operation (and the `uint64_t → double` conversion) is rounded
  to nearest with ties to even, and the final `static_cast<Time>` truncates
  toward zero.  The magnitudes involved reach neither overflow nor subnormals.
* `std::sort` (used by the greedy source selection) guarantees only that its
  output is a permutation ordered by the comparator; the order of elements that
  compare equal is unspecified.  It is therefore modelled abstractly by
  `ValidSort`; the loop embedding is determinized with one conforming outcome,
  and the claims proved about the loop do not depend on which one.
* Unbounded loops are run on explicit fuel.
-/

namespace Tacos

/-- A recorded link-chunk match of the greedy synthesizer: chunk, source NPU,
destination NPU, the event (arrival) time, and the transmission start time
(`currentTime - linkDelay`, a signed quantity). -/
structure Match where
  chunk : Nat
  src : Nat
  dest : Nat
  time : Nat
  startTime : Int
deriving Repr, DecidableEq

/-- A link-chunk match recorded by the beam synthesizer.  The C++ beam result
stores only `(chunk, src, dest)`; the event time at which the match was made is
kept here as ghost data for specification purposes. -/
structure BMatch where
  chunk : Nat
  src : Nat
  dest : Nat
  time : Nat
deriving Repr, DecidableEq

/-- Modelled from the spec (§4.4): the Time-Expanded Network state.  The
implementation file of `TimeExpandedNetwork` is not in the tree (only
`time_expanded_network.h`); per the spec it maintains `linkBusyUntil[s][d]`
(initially 0) and a derived boolean `linkAvailable[s][d]`. -/
structure TEN where
  busyUntil : Nat → Nat → Nat
  linkAvailable : Nat → Nat → Bool

/-- Modelled from the spec (§4.4): `updateCurrentTime(T)` recomputes
`linkAvailable[s][d] := (linkBusyUntil[s][d] ≤ T)`. -/
def TEN.updateCurrentTime (ten : TEN) (T : Nat) : TEN :=
  { busyUntil := ten.busyUntil
    linkAvailable := fun s d => decide (ten.busyUntil s d ≤ T) }

/-- Modelled from the spec (§4.4): `markLinkOccupied(s,d)` sets
`linkBusyUntil[s][d] := currentTime + linkDelay(s,d)` and
`linkAvailable[s][d] := false`. -/
def TEN.markLinkOccupied (delay : Nat → Nat → Nat) (ten : TEN) (src dest currentTime : Nat) :
    TEN :=
  { busyUntil := fun s d =>
      if s = src ∧ d = dest then currentTime + delay src dest else ten.busyUntil s d
    linkAvailable := fun s d =>
      if s = src ∧ d = dest then false else ten.linkAvailable s d }

/-- Modelled from the spec (§4.4): `backtrackTEN(dest)` returns the set of
sources `s` such that `(s,dest)` is connected and `linkAvailable[s][dest]`
holds.  The result is ascending in `s`, matching `std::set<NpuID>` iteration. -/
def TEN.backtrackTEN (n : Nat) (conn : Nat → Nat → Bool) (ten : TEN) (dest : Nat) : List Nat :=
  (List.range n).filter (fun s => conn s dest && ten.linkAvailable s dest)

/-- Modelled from the spec (§4.3): the event queue is an ordered set of times;
`schedule` inserts idempotently, keeping the list strictly sorted. -/
def scheduleEvent (t : Nat) : List Nat → List Nat
  | [] => [t]
  | x :: xs =>
    if t < x then t :: x :: xs
    else if t = x then x :: xs
    else x :: scheduleEvent t xs

/-- A collective condition (`std::map<NpuID, std::set<ChunkID>>`) as an
association list from NPU to its chunk set. -/
abbrev Cond := List (Nat × List Nat)

/-- Lookup of the chunk set of an NPU in a condition (absent key yields `[]`,
matching a `std::map` entry that is absent). -/
def condLookup (q : Cond) (d : Nat) : List Nat :=
  match q.find? (fun e => decide (e.1 = d)) with
  | some e => e.2
  | none => []

/-- Whether a condition has an entry for NPU `d`. -/
def condHasKey (q : Cond) (d : Nat) : Bool :=
  (q.find? (fun e => decide (e.1 = d))).isSome

/-- Membership of the pair `(d, c)` in a condition. -/
def condMem (q : Cond) (d c : Nat) : Bool :=
  q.any (fun e => decide (e.1 = d) && decide (c ∈ e.2))

/-- The update performed on the live postcondition by `markLinkChunkMatch`:
`postcondition[dest].erase(chunk)` followed by erasing the `dest` entry when
its chunk set became empty (`operator[]` on an absent key inserts an empty set,
which the emptiness check then removes again, a net no-op). -/
def condErase (q : Cond) (d c : Nat) : Cond :=
  let l' := (condLookup q d).erase c
  if l'.isEmpty then q.filter (fun e => !(decide (e.1 = d)))
  else q.map (fun e => if e.1 = d then (d, l') else e)

/-- Total number of chunk occurrences plus entries of a condition; the
termination measure of the link-chunk matching loop. -/
def condSize (q : Cond) : Nat :=
  (q.map (fun e => e.2.length + 1)).sum

/-- Well-formedness of a condition as produced by `Collective` and preserved by
the synthesizers: keys are distinct, every entry's chunk set is non-empty and
duplicate-free. -/
def WfCond (q : Cond) : Prop :=
  (q.map Prod.fst).Nodup ∧ ∀ e ∈ q, e.2 ≠ [] ∧ e.2.Nodup

/-- `GreedySynthesizer::selectPostcondition` / `BeamSynthesizer::selectPostcondition`:
pick a pseudo-random entry of the working copy of the postcondition (draw
`o ctr`), then a pseudo-random chunk of that entry (draw `o (ctr+1)`); remove
the chunk, dropping the entry when it empties.  Returns
`(dest, chunk, remaining copy, new draw counter)`.  The (unreachable for
well-formed conditions) case of an empty chunk set drops the entry. -/
def selectPostcondition (o : Nat → Nat) (ctr : Nat) (q : Cond) : Nat × Nat × Cond × Nat :=
  let i := o ctr % q.length
  let e := q.getD i (0, [])
  match e.2 with
  | [] => (e.1, 0, q.eraseIdx i, ctr + 2)
  | _ :: _ =>
    let j := o (ctr + 1) % e.2.length
    let chunk := e.2.getD j 0
    let chunks' := e.2.eraseIdx j
    (e.1, chunk,
      if chunks'.isEmpty then q.eraseIdx i else q.set i (e.1, chunks'), ctr + 2)

/-- `GreedySynthesizer::checkCandidateSourceNpus`: among the backtracked source
NPUs, keep those holding `chunk` in the precondition snapshot. -/
def checkCandidateSourceNpus (chunk : Nat) (P0 : Nat → List Nat) (sources : List Nat) :
    List Nat :=
  sources.filter (fun s => decide (chunk ∈ P0 s))

/-- The determinization of `GreedySynthesizer::selectSourceNpu` (with `N = 1`)
used inside the loop embedding: a single candidate is returned directly;
otherwise the candidates (ascending, as iterated from the `std::set`) are
paired with `linkDelay(src, dest)`, arranged by one particular outcome
conforming to the `std::sort` contract for the comparator
`a.second > b.second` (here: the stable descending arrangement), and the
element at index `N = 1` is returned.  `std::sort` fixes no order among
delay ties, so tie order is not a property of the program; the theorems about
the surrounding loop do not depend on it, and the selection itself is treated
over all conforming outcomes via `ValidSort` and `selectSourceNpuWith`. -/
def selectSourceNpu (delay : Nat → Nat → Nat) (cands : List Nat) (dest : Nat) : Nat :=
  if cands.length = 1 then cands.headD 0
  else
    let linkDelays := cands.map (fun s => (s, delay s dest))
    let sorted := linkDelays.insertionSort (fun a b => b.2 ≤ a.2)
    (sorted.getD 1 (0, 0)).1

/-- The ordering described by the spec for the greedy source selection:
descending link delay, ties broken by NpuID ascending. -/
def SpecLE (a b : Nat × Nat) : Prop :=
  b.2 < a.2 ∨ (a.2 = b.2 ∧ a.1 ≤ b.1)

instance : DecidableRel SpecLE := fun a b => by
  unfold SpecLE
  infer_instance

/-- The source selection as worded by the spec: sort the candidate pairs by
descending link delay with ties broken by NpuID ascending, and return the
element at index 1 (when at least two candidates exist). -/
def selectSourceNpuSpec (delay : Nat → Nat → Nat) (cands : List Nat) (dest : Nat) : Nat :=
  if cands.length = 1 then cands.headD 0
  else (((cands.map (fun s => (s, delay s dest))).insertionSort SpecLE).getD 1 (0, 0)).1

/-- The contract `std::sort` actually guarantees for the comparator
`a.second > b.second`: the output is a permutation of the input whose link
delays are non-increasing.  The order among elements with equal delays is
unspecified by the C++ standard, so the sort is modelled as an arbitrary
function satisfying exactly this contract. -/
def ValidSort (sortFn : List (Nat × Nat) → List (Nat × Nat)) : Prop :=
  ∀ l, (sortFn l).Perm l ∧ (sortFn l).Pairwise (fun a b => b.2 ≤ a.2)

/-- `GreedySynthesizer::selectSourceNpu` (with `N = 1`) over an arbitrary
conforming `std::sort` outcome `sortFn`: a single candidate is returned
directly; otherwise the candidates are paired with `linkDelay(src, dest)`,
arranged by `sortFn`, and the element at index `N = 1` is returned. -/
def selectSourceNpuWith (sortFn : List (Nat × Nat) → List (Nat × Nat))
    (delay : Nat → Nat → Nat) (cands : List Nat) (dest : Nat) : Nat :=
  if cands.length = 1 then cands.headD 0
  else ((sortFn (cands.map (fun s => (s, delay s dest)))).getD 1 (0, 0)).1

/-- An alternative conforming order: descending link delay with ties broken by
NpuID descending — equally valid for `std::sort`, and disagreeing with the
NpuID-ascending order exactly on delay ties. -/
def SpecGE (a b : Nat × Nat) : Prop :=
  b.2 < a.2 ∨ (a.2 = b.2 ∧ b.1 ≤ a.1)

instance : DecidableRel SpecGE := fun a b => by
  unfold SpecGE
  infer_instance

/-- The sorting function realizing `SpecGE`. -/
def sortDescNpu : List (Nat × Nat) → List (Nat × Nat) :=
  fun l => l.insertionSort SpecGE

/-- The state of one `GreedySynthesizer` run: working precondition (total over
NPUs, as seeded by the `Collective` constructor), working postcondition, TEN,
current time, event queue, recorded matches (the SynthesisResult log), and the random draw counter. -/
structure GState where
  pre : Nat → List Nat
  post : Cond
  ten : TEN
  time : Nat
  queue : List Nat
  result : List Match
  ctr : Nat

/-- `GreedySynthesizer::markLinkChunkMatch`: compute
`transmissionStartTime = currentTime - linkDelay`, record the match, mark the
link occupied, insert the chunk into the destination's precondition, erase it
from the destination's postcondition (dropping the entry when it empties). -/
def markLinkChunkMatchG (delay : Nat → Nat → Nat) (src dest chunk : Nat) (st : GState) :
    GState :=
  let linkDelay := delay src dest
  let startTime : Int := (st.time : Int) - (linkDelay : Int)
  { st with
    result := st.result ++ [⟨chunk, src, dest, st.time, startTime⟩]
    ten := TEN.markLinkOccupied delay st.ten src dest st.time
    pre := fun x => if x = dest then (st.pre dest).insert chunk else st.pre x
    post := condErase st.post dest chunk }

/-- The body of `GreedySynthesizer::linkChunkMatching`: while the working copy
`q` of the postcondition is non-empty, select a `(dest, chunk)` pair, backtrack
the TEN, filter candidate sources against the precondition snapshot `P0`, and
on a non-empty candidate set make the greedy match.  Runs on fuel; the callers
pass `condSize q`, which bounds the iteration count. -/
def matchLoopG (n : Nat) (conn : Nat → Nat → Bool) (delay : Nat → Nat → Nat)
    (o : Nat → Nat) (P0 : Nat → List Nat) : Nat → Cond → GState → GState
  | 0, _, st => st
  | fuel + 1, q, st =>
    if q.isEmpty then st
    else
      match selectPostcondition o st.ctr q with
      | (dest, chunk, q', ctr') =>
        let st1 : GState := { st with ctr := ctr' }
        let sources := TEN.backtrackTEN n conn st1.ten dest
        let cands := checkCandidateSourceNpus chunk P0 sources
        if cands.isEmpty then matchLoopG n conn delay o P0 fuel q' st1
        else
          matchLoopG n conn delay o P0 fuel q'
            (markLinkChunkMatchG delay (selectSourceNpu delay cands dest) dest chunk st1)

/-- `GreedySynthesizer::linkChunkMatching`: snapshot the precondition and the
postcondition at the start of the event and run the matching loop. -/
def linkChunkMatchingG (n : Nat) (conn : Nat → Nat → Bool) (delay : Nat → Nat → Nat)
    (o : Nat → Nat) (st : GState) : GState :=
  matchLoopG n conn delay o st.pre (condSize st.post) st.post st

/-- The distinct link delays of the topology (`Topology::getDistinctLinkDelays`
restricted to connected pairs). -/
def distinctLinkDelays (n : Nat) (conn : Nat → Nat → Bool) (delay : Nat → Nat → Nat) :
    List Nat :=
  ((List.range n).foldr
    (fun s acc =>
      ((List.range n).filterMap (fun d => if conn s d then some (delay s d) else none)) ++ acc)
    []).dedup

/-- `GreedySynthesizer::scheduleNextEvents`: schedule `currentTime + δ` for
every distinct link delay `δ`. -/
def scheduleNextEventsG (delays : List Nat) (st : GState) : GState :=
  { st with queue := delays.foldl (fun qu dl => scheduleEvent (st.time + dl) qu) st.queue }

/-- The greedy synthesizer's state right after construction: working pre- and
postcondition from the collective, all links free, time 0, the initial events
scheduled. -/
def initGState (delays : List Nat) (pre : Nat → List Nat) (post : Cond) : GState :=
  scheduleNextEventsG delays
    { pre := pre, post := post, ten := ⟨fun _ _ => 0, fun _ _ => false⟩,
      time := 0, queue := [], result := [], ctr := 0 }

/-- The main loop of `GreedySynthesizer::synthesize`, on fuel: pop the earliest
event, update the TEN, run link-chunk matching; stop reporting completion when
the working postcondition emptied, otherwise schedule the next events and
continue.  The second component reports whether synthesis completed. -/
def runG (n : Nat) (conn : Nat → Nat → Bool) (delay : Nat → Nat → Nat) (delays : List Nat)
    (o : Nat → Nat) : Nat → GState → GState × Bool
  | 0, st => (st, false)
  | fuel + 1, st =>
    match st.queue with
    | [] => (st, false)
    | t :: rest =>
      let st1 : GState :=
        { st with time := t, queue := rest, ten := st.ten.updateCurrentTime t }
      let st2 := linkChunkMatchingG n conn delay o st1
      if st2.post.isEmpty then (st2, true)
      else runG n conn delay delays o fuel (scheduleNextEventsG delays st2)

/-- `GreedySynthesizer::synthesize` from the constructed initial state. -/
def synthesizeG (n : Nat) (conn : Nat → Nat → Bool) (delay : Nat → Nat → Nat)
    (o : Nat → Nat) (fuel : Nat) (pre : Nat → List Nat) (post : Cond) : GState × Bool :=
  let delays := distinctLinkDelays n conn delay
  runG n conn delay delays o fuel (initGState delays pre post)

/-- The state of one beam of the `BeamSynthesizer`: its working precondition,
working postcondition, TEN, its result's collective time (initially 0) and its
result's match log. -/
structure BState where
  pre : Nat → List Nat
  post : Cond
  ten : TEN
  collectiveTime : Nat
  result : List BMatch

/-- `BeamSynthesizer::selectSourceNpu`: a single candidate is returned
directly, otherwise a pseudo-random candidate is drawn.  Returns the source
and the new draw counter. -/
def selectSourceNpuB (o : Nat → Nat) (ctr : Nat) (cands : List Nat) : Nat × Nat :=
  if cands.length = 1 then (cands.headD 0, ctr)
  else (cands.getD (o ctr % cands.length) 0, ctr + 1)

/-- `BeamSynthesizer::markLinkChunkMatch`: record the match in the beam's
result, insert the chunk into the destination's precondition and erase it from
the destination's postcondition (dropping the entry when it empties).  Unlike
the greedy synthesizer, the beam synthesizer does not mark the link occupied. -/
def markLinkChunkMatchB (T : Nat) (src dest chunk : Nat) (b : BState) : BState :=
  { b with
    result := b.result ++ [⟨chunk, src, dest, T⟩]
    pre := fun x => if x = dest then (b.pre dest).insert chunk else b.pre x
    post := condErase b.post dest chunk }

/-- The body of `BeamSynthesizer::linkChunkMatching` for one beam at event time
`T`, on fuel, with random source selection and the shared draw counter
threaded through. -/
def matchLoopB (n : Nat) (conn : Nat → Nat → Bool) (o : Nat → Nat) (T : Nat)
    (P0 : Nat → List Nat) : Nat → Cond → BState → Nat → BState × Nat
  | 0, _, b, ctr => (b, ctr)
  | fuel + 1, q, b, ctr =>
    if q.isEmpty then (b, ctr)
    else
      match selectPostcondition o ctr q with
      | (dest, chunk, q', ctr') =>
        let sources := TEN.backtrackTEN n conn b.ten dest
        let cands := checkCandidateSourceNpus chunk P0 sources
        if cands.isEmpty then matchLoopB n conn o T P0 fuel q' b ctr'
        else
          match selectSourceNpuB o ctr' cands with
          | (src, ctr'') =>
            matchLoopB n conn o T P0 fuel q' (markLinkChunkMatchB T src dest chunk b) ctr''

/-- `BeamSynthesizer::linkChunkMatching` on one beam: snapshot that beam's
precondition and postcondition and run the matching loop. -/
def linkChunkMatchingB (n : Nat) (conn : Nat → Nat → Bool) (o : Nat → Nat) (T : Nat)
    (b : BState) (ctr : Nat) : BState × Nat :=
  matchLoopB n conn o T b.pre (condSize b.post) b.post b ctr

/-- The per-beam body of the beam synthesizer's event iteration at popped time
`T`: an incomplete beam updates its TEN time and runs link-chunk matching; a
completed beam whose collective time is still 0 records `T`; otherwise nothing
happens.  Beams are processed in order, sharing the draw counter. -/
def beamEvent (n : Nat) (conn : Nat → Nat → Bool) (o : Nat → Nat) (T : Nat) :
    List BState → Nat → List BState × Nat
  | [], ctr => ([], ctr)
  | b :: bs, ctr =>
    let step : BState × Nat :=
      if !b.post.isEmpty then
        linkChunkMatchingB n conn o T { b with ten := b.ten.updateCurrentTime T } ctr
      else if b.collectiveTime = 0 then ({ b with collectiveTime := T }, ctr)
      else (b, ctr)
    let rest := beamEvent n conn o T bs step.2
    (step.1 :: rest.1, rest.2)

/-- The main loop of `BeamSynthesizer::synthesize`, on fuel: pop the earliest
event, run every beam's iteration, and if every beam is complete stop,
assigning the current time to every result whose collective time is still 0;
otherwise schedule the next events and continue.  Returns the final beams and
the final popped time on completion. -/
def runB (n : Nat) (conn : Nat → Nat → Bool) (o : Nat → Nat) (delays : List Nat) :
    Nat → List BState → Nat → List Nat → Nat → Option (List BState × Nat)
  | 0, _, _, _, _ => none
  | fuel + 1, bs, _time, queue, ctr =>
    match queue with
    | [] => none
    | t :: rest =>
      match beamEvent n conn o t bs ctr with
      | (bs', ctr') =>
        if bs'.all (fun b => b.post.isEmpty) then
          some (bs'.map (fun b => if b.collectiveTime = 0 then { b with collectiveTime := t } else b), t)
        else
          runB n conn o delays fuel bs' t
            (delays.foldl (fun qu dl => scheduleEvent (t + dl) qu) rest) ctr'

/-- `std::min_element` over the beam results with comparator
`a.getCollectiveTime() < b.getCollectiveTime()`: the first beam result with
minimal collective time. -/
def minElemBy (best : BState) : List BState → BState
  | [] => best
  | b :: bs => minElemBy (if b.collectiveTime < best.collectiveTime then b else best) bs

/-- `BeamSynthesizer::synthesize` from the constructed initial state: `K` beams
each initialized from the collective's precondition and postcondition, a shared
event queue seeded from time 0, and the shared random draw counter.  Returns
`(returned result, all beam results, final popped time)` on completion; `none`
models non-termination (and the undefined `min_element` dereference for
`K = 0`). -/
def beamSynthesize (n : Nat) (conn : Nat → Nat → Bool) (delay : Nat → Nat → Nat)
    (o : Nat → Nat) (K : Nat) (fuel : Nat) (pre : Nat → List Nat) (post : Cond) :
    Option (BState × List BState × Nat) :=
  let delays := distinctLinkDelays n conn delay
  let bs0 : List BState :=
    List.replicate K ⟨pre, post, ⟨fun _ _ => 0, fun _ _ => false⟩, 0, []⟩
  let queue0 := delays.foldl (fun qu dl => scheduleEvent (0 + dl) qu) []
  match runB n conn o delays fuel bs0 0 queue0 0 with
  | none => none
  | some (bs, T) =>
    match bs with
    | [] => none
    | b :: rest => some (minElemBy b rest, bs, T)

/-- The candidate-existence predicate governing whether the pair `(dest, chunk)`
is matched by the beam synthesizer at the current event: some connected,
available source holds the chunk in the precondition snapshot. -/
def predB (n : Nat) (conn : Nat → Nat → Bool) (ten : TEN) (P0 : Nat → List Nat)
    (dest chunk : Nat) : Bool :=
  !(checkCandidateSourceNpus chunk P0 (TEN.backtrackTEN n conn ten dest)).isEmpty

/-- The closed form of a beam's postcondition after one full event: every pair
of the event-entry working copy `q0` whose candidate set was non-empty is
erased, entries that empty are dropped. -/
def finalPost (q0 : Cond) (pr : Nat → Nat → Bool) (post : Cond) : Cond :=
  post.filterMap (fun e =>
    let cs := e.2.filter (fun c => !(condMem q0 e.1 c && pr e.1 c))
    if cs.isEmpty then none else some (e.1, cs))

/-- Bit length of a natural number, on explicit fuel (the number itself is
enough fuel, as the value at least halves every step). -/
def bitlenAux : Nat → Nat → Nat
  | 0, _ => 0
  | fuel + 1, n => if n = 0 then 0 else bitlenAux fuel (n / 2) + 1

/-- Number of binary digits of `n` (0 for 0). -/
def bitlen (n : Nat) : Nat :=
  bitlenAux n n

/-- An IEEE-754 binary64 value as an unsigned dyadic number `m · 2^e`.  All
quantities in the link-delay computation are non-negative, so no sign is
needed, and the magnitudes reach neither overflow nor subnormals. -/
structure F64 where
  m : Nat
  e : Int
deriving Repr, DecidableEq

/-- Round the non-negative rational `(a / b) · 2^e` to 53 significant bits
with round to nearest, ties to even — the binary64 rounding applied to every
arithmetic result.  The scale is chosen so the value lands in `[2^52, 2^53)`
before integer rounding; a carry to `2^53` bumps the exponent. -/
def roundPos (a b : Nat) (e : Int) : F64 :=
  if a = 0 ∨ b = 0 then ⟨0, 0⟩
  else
    let g : Int := (bitlen a : Int) - (bitlen b : Int)
    let ge : Bool :=
      if 0 ≤ g then decide (b * 2 ^ g.toNat ≤ a) else decide (b ≤ a * 2 ^ (-g).toNat)
    let ilog : Int := if ge then g else g - 1
    let t : Int := ilog - 52
    let num := a * 2 ^ (-t).toNat
    let den := b * 2 ^ t.toNat
    let q0 := num / den
    let r := num % den
    let q : Nat :=
      if 2 * r < den then q0
      else if den < 2 * r then q0 + 1
      else if q0 % 2 = 0 then q0 else q0 + 1
    if q = 2 ^ 53 then ⟨2 ^ 52, t + 1 + e⟩ else ⟨q, t + e⟩

/-- Binary64 multiplication: the exact product, rounded. -/
def fmul (x y : F64) : F64 :=
  roundPos (x.m * y.m) 1 (x.e + y.e)

/-- Binary64 division: the correctly rounded quotient. -/
def fdiv (x y : F64) : F64 :=
  roundPos x.m y.m (x.e - y.e)

/-- Binary64 addition of non-negative values: the exact aligned sum,
rounded. -/
def fadd (x y : F64) : F64 :=
  if x.e ≤ y.e then roundPos (x.m + y.m * 2 ^ (y.e - x.e).toNat) 1 x.e
  else roundPos (x.m * 2 ^ (x.e - y.e).toNat + y.m) 1 y.e

/-- The binary64 value of an unsigned integer (the `uint64_t → double`
conversion, rounded like every operation). -/
def f64OfNat (n : Nat) : F64 :=
  roundPos n 1 0

/-- The rational value of a binary64 number. -/
def F64.toRat (x : F64) : ℚ :=
  (x.m : ℚ) * (2 : ℚ) ^ x.e

/-- `static_cast<uint64_t>` of a non-negative binary64 value: truncation
toward zero. -/
def f64Trunc (x : F64) : Nat :=
  if 0 ≤ x.e then x.m * 2 ^ x.e.toNat else x.m / 2 ^ (-x.e).toNat

/-- The `Topology` state: NPU count, directed connectivity, per-link latency
(ns) and bandwidth (GB/s) as the stored C++ `double`s, the derived per-link
delays (ps), the chunk size, and the freeze flag. -/
structure Topology where
  npusCount : Nat
  connected : Nat → Nat → Bool
  latencies : Nat → Nat → F64
  bandwidths : Nat → Nat → F64
  linkDelays : Nat → Nat → Nat
  chunkSize : Nat
  chunkSizeSet : Bool

/-- The binary64 evaluation inside `Topology::computeLinkDelay` before the
final cast: `bandwidthBytesPerNS = bandwidth · 2³⁰ / 10⁹`,
`beta = 1 / bandwidthBytesPerNS`, `linkDelayNS = latency + beta · chunkSize`,
`linkDelayPS = linkDelayNS · 10³`, each operation (and the
`uint64_t → double` conversion of the chunk size) rounded to nearest, ties to
even; `2³⁰`, `10⁹` and `10³` are exactly representable literals. -/
def Topology.linkDelayPS (t : Topology) (chunkSize : Nat) (src dest : Nat) : F64 :=
  let bandwidthBytesPerNS :=
    fdiv (fmul (t.bandwidths src dest) (f64OfNat (2 ^ 30))) (f64OfNat (10 ^ 9))
  let beta := fdiv ⟨1, 0⟩ bandwidthBytesPerNS
  let linkDelayNS := fadd (t.latencies src dest) (fmul beta (f64OfNat chunkSize))
  fmul linkDelayNS (f64OfNat (10 ^ 3))

/-- `Topology::computeLinkDelay`: the binary64 α–β chain, truncated by
`static_cast<Time>`. -/
def Topology.computeLinkDelay (t : Topology) (chunkSize : Nat) (src dest : Nat) : Nat :=
  f64Trunc (t.linkDelayPS chunkSize src dest)

/-- `Topology::setChunkSize`: freeze the chunk size and compute the link delay
of every connected pair. -/
def Topology.setChunkSize (t : Topology) (newChunkSize : Nat) : Topology :=
  { t with
    chunkSize := newChunkSize
    chunkSizeSet := true
    linkDelays := fun s d =>
      if t.connected s d then t.computeLinkDelay newChunkSize s d else t.linkDelays s d }

/-- `Topology::getLinkDelay`. -/
def Topology.getLinkDelay (t : Topology) (src dest : Nat) : Nat :=
  t.linkDelays src dest

/-- Modelled from the spec: the exact α–β link-delay formula in real
(rational) arithmetic, the comparison point for the binary64 computation —
`(latency_ns + bytes / (bandwidth_GBps · 2³⁰ / 10⁹)) · 10³` picoseconds. -/
def exactLinkDelayPS (latency bandwidth : ℚ) (bytes : Nat) : ℚ :=
  (latency + (bytes : ℚ) / (bandwidth * 2 ^ 30 / 10 ^ 9)) * 10 ^ 3

/-- Ingress/egress link info of `NpuResult`: for each peer, the list of
`(chunk, arrivalTime, transmissionStartTime)` records. -/
abbrev LinkInfoMap := List (Nat × List (Nat × Nat × Int))

/-- The `NpuResult` state: its NPU id, counts, per-peer ingress and egress
logs, and the chunk dependency info. -/
structure NpuResult where
  npu : Nat
  npusCount : Nat
  chunksCount : Nat
  ingressLinksInfo : LinkInfoMap
  egressLinksInfo : LinkInfoMap
  dependencyInfo : List (Nat × Option Nat)

/-- The `NpuResult` constructor: register an (initially empty) egress log for
every `dest ≠ npu` with a connected link `npu → dest`, an ingress log for every
`dest ≠ npu` with a connected link `dest → npu`, and empty dependency info for
every chunk. -/
def NpuResult.build (npu n chunksCount : Nat) (conn : Nat → Nat → Bool) : NpuResult :=
  { npu := npu
    npusCount := n
    chunksCount := chunksCount
    egressLinksInfo :=
      (List.range n).filterMap (fun dest =>
        if npu = dest then none
        else if conn npu dest then some (dest, []) else none)
    ingressLinksInfo :=
      (List.range n).filterMap (fun dest =>
        if npu = dest then none
        else if conn dest npu then some (dest, []) else none)
    dependencyInfo := (List.range chunksCount).map (fun c => (c, none)) }

/-- `std::map::at`: `some` of the mapped value, or `none` (an exception) when
the key is absent. -/
def mapAt (m : LinkInfoMap) (k : Nat) : Option (List (Nat × Nat × Int)) :=
  (m.find? (fun e => decide (e.1 = k))).map (fun e => e.2)

/-- `NpuResult::getIngressLinkInfo`: if `src` has no registered ingress entry
(`find == end`), return the empty list; otherwise return
`ingressLinksInfo.at(src)`.  The `Option` records whether the lookup could
fail: `none` would be an uncaught exception. -/
def NpuResult.getIngressLinkInfo (r : NpuResult) (src : Nat) :
    Option (List (Nat × Nat × Int)) :=
  if (r.ingressLinksInfo.find? (fun e => decide (e.1 = src))).isNone then some []
  else mapAt r.ingressLinksInfo src

/-- `NpuResult::getEgressLinkInfo`: if `dest` has no registered egress entry,
return the empty list; otherwise return `egressLinksInfo.at(dest)`. -/
def NpuResult.getEgressLinkInfo (r : NpuResult) (dest : Nat) :
    Option (List (Nat × Nat × Int)) :=
  if (r.egressLinksInfo.find? (fun e => decide (e.1 = dest))).isNone then some []
  else mapAt r.egressLinksInfo dest

/-- The `Collective` state: the stored precondition and postcondition maps. -/
structure Collective where
  npusCount : Nat
  chunkSize : ℚ
  precondition : Cond
  postcondition : Cond

/-- `Collective::getPrecondition`: returns the stored precondition by value
(the C++ signature returns `CollectivePrecondition`, not a reference, so the
caller receives a copy). -/
def Collective.getPrecondition (c : Collective) : Cond :=
  c.precondition

/-- `Collective::getPostcondition`: returns the stored postcondition by value. -/
def Collective.getPostcondition (c : Collective) : Cond :=
  c.postcondition

/-- A caller session against a `Collective`: the collective object together
with the caller's local copies obtained from the getters.  Models the C++
ownership situation in which the caller holds value copies of the maps. -/
structure CollectiveSession where
  coll : Collective
  callerPre : Cond
  callerPost : Cond

/-- The caller obtains both conditions (by-value returns copy them into the
caller's locals). -/
def CollectiveSession.acquire (c : Collective) : CollectiveSession :=
  { coll := c, callerPre := c.getPrecondition, callerPost := c.getPostcondition }

/-- The caller mutates its local copies arbitrarily (`f`, `g` are any map
transformations the caller performs in place on its copies). -/
def CollectiveSession.mutate (s : CollectiveSession) (f g : Cond → Cond) :
    CollectiveSession :=
  { s with callerPre := f s.callerPre, callerPost := g s.callerPost }

/-- The 2-NPU topology of the C4 counterexample: a single directed link
`0 → 1` with latency 0 ns and bandwidth 1 GB/s (both exactly representable
doubles). -/
def exTopo : Topology :=
  { npusCount := 2
    connected := fun s d => decide (s = 0) && decide (d = 1)
    latencies := fun _ _ => ⟨0, 0⟩
    bandwidths := fun _ _ => ⟨1, 0⟩
    linkDelays := fun _ _ => 0
    chunkSize := 0
    chunkSizeSet := false }

/-- The 2-NPU topology of the C4 witness (scenario S1 of the spec): link
`0 → 1` with latency 500 ns and bandwidth 50 GB/s (both exactly representable
doubles). -/
def s1Topo : Topology :=
  { npusCount := 2
    connected := fun s d => decide (s = 0) && decide (d = 1)
    latencies := fun _ _ => ⟨500, 0⟩
    bandwidths := fun _ _ => ⟨50, 0⟩
    linkDelays := fun _ _ => 0
    chunkSize := 0
    chunkSizeSet := false }

/-- Connectivity of the 2-NPU asymmetric scenario used for C2: links `0 → 1`
and `1 → 0`. -/
def c2Conn : Nat → Nat → Bool :=
  fun s d => (decide (s = 0) && decide (d = 1)) || (decide (s = 1) && decide (d = 0))

/-- Link delays of the 2-NPU asymmetric scenario: `0 → 1` takes 10 ps,
`1 → 0` takes 5 ps. -/
def c2Delay : Nat → Nat → Nat :=
  fun s _ => if s = 0 then 10 else 5

/-- Initial precondition of the 2-NPU scenario: NPU 0 holds chunk 0. -/
def c2Pre : Nat → List Nat :=
  fun x => if x = 0 then [0] else []

/-- Connectivity of the 3-NPU unidirectional ring `0 → 1 → 2 → 0`. -/
def ringConn : Nat → Nat → Bool :=
  fun s d => (decide (s = 0) && decide (d = 1)) || (decide (s = 1) && decide (d = 2)) ||
    (decide (s = 2) && decide (d = 0))

/-- Uniform 5 ps link delay on the ring. -/
def ringDelay : Nat → Nat → Nat :=
  fun _ _ => 5

/-- All-Gather initial precondition on the ring: NPU `i` holds chunk `i`. -/
def ringPre : Nat → List Nat :=
  fun x => [x]

/-- All-Gather postcondition on the ring: each NPU requires the two chunks it
does not hold. -/
def ringPost : Cond :=
  [(0, [1, 2]), (1, [0, 2]), (2, [0, 1])]

/-- A mid-event greedy state used to witness the snapshot semantics of C7:
ring topology at event time 5, every link available, nothing matched yet. -/
def ringEventState : GState :=
  { pre := ringPre
    post := ringPost
    ten := ⟨fun _ _ => 0, fun _ _ => true⟩
    time := 5
    queue := []
    result := []
    ctr := 0 }

/-- The loop invariant of the greedy synthesizer tying the event queue, the
TEN bookkeeping and the recorded matches together: the queue is a strictly
sorted set of future times, matches happened no later than the current time,
an available link's busy-until stamp has passed, every match is covered by its
link's busy-until stamp, and matches on a common link are separated by at
least that link's delay. -/
def GInvariant (delay : Nat → Nat → Nat) (st : GState) : Prop :=
  List.Sorted (· < ·) st.queue ∧
  (∀ t ∈ st.queue, st.time ≤ t) ∧
  (∀ m ∈ st.result, m.time ≤ st.time) ∧
  (∀ s d, st.ten.linkAvailable s d = true → st.ten.busyUntil s d ≤ st.time) ∧
  (∀ m ∈ st.result, m.time + delay m.src m.dest ≤ st.ten.busyUntil m.src m.dest) ∧
  st.result.Pairwise (fun m1 m2 => m1.src = m2.src → m1.dest = m2.dest →
    m1.time + delay m1.src m1.dest ≤ m2.time)

/-- A junk default used only to name the components of a completed beam run. -/
def bJunk : BState × List BState × Nat :=
  (⟨fun _ => [], [], ⟨fun _ _ => 0, fun _ _ => false⟩, 0, []⟩, [], 0)

/-- The completed 2-beam run on the ring used by the C6 witness. -/
def c6run : BState × List BState × Nat :=
  (beamSynthesize 3 ringConn ringDelay (fun _ => 0) 2 6 ringPre ringPost).getD bJunk

/-- The completed 2-beam run on the ring used by the C5 witness. -/
def c5run : BState × List BState × Nat :=
  (beamSynthesize 3 ringConn ringDelay (fun k => k - k) 2 6 ringPre ringPost).getD bJunk

/-- Pointwise equivalence of two beam states: identical working
postconditions, membership-identical working preconditions, pointwise-equal
TENs, and equal collective times. -/
def BEquiv (b1 b2 : BState) : Prop :=
  b1.post = b2.post ∧
  (∀ x c, c ∈ b1.pre x ↔ c ∈ b2.pre x) ∧
  (∀ s d, b1.ten.busyUntil s d = b2.ten.busyUntil s d) ∧
  (∀ s d, b1.ten.linkAvailable s d = b2.ten.linkAvailable s d) ∧
  b1.collectiveTime = b2.collectiveTime

/- ------------------------------------------------------------------ -/
/- Theorems.                                                          -/
/- ------------------------------------------------------------------ -/

/-- C9: `Collective::getPrecondition` and `Collective::getPostcondition`
return independent copies of the stored conditions: whatever transformations
`f`, `g` the caller applies to its copies, the collective's own precondition
and postcondition are unchanged, and a subsequent call returns the original
values. -/
theorem collective_getters_return_independent_copies (c : Collective) (f g : Cond → Cond) :
    ((CollectiveSession.acquire c).mutate f g).coll.getPrecondition = c.precondition ∧
    ((CollectiveSession.acquire c).mutate f g).coll.getPostcondition = c.postcondition ∧
    (CollectiveSession.acquire (((CollectiveSession.acquire c).mutate f g).coll)).callerPre
      = c.getPrecondition ∧
    (CollectiveSession.acquire (((CollectiveSession.acquire c).mutate f g).coll)).callerPost
      = c.getPostcondition :=
  ⟨rfl, rfl, rfl, rfl⟩

/-- C10: for every peer, `NpuResult::getIngressLinkInfo` and
`NpuResult::getEgressLinkInfo` never fail (on any `NpuResult` state, the
absent-key guard makes the lookup total), and on a freshly constructed
`NpuResult` they return the empty list whenever this NPU has no connected
ingress (respectively egress) link with that peer. -/
theorem npu_result_link_info_total (n chunksCount npu peer : Nat)
    (conn : Nat → Nat → Bool) (hpeer : peer < n) :
    (∀ r : NpuResult, (r.getIngressLinkInfo peer).isSome ∧
      (r.getEgressLinkInfo peer).isSome) ∧
    (conn peer npu = false ∨ peer = npu →
      (NpuResult.build npu n chunksCount conn).getIngressLinkInfo peer = some []) ∧
    (conn npu peer = false ∨ peer = npu →
      (NpuResult.build npu n chunksCount conn).getEgressLinkInfo peer = some []) := by
  refine ⟨fun r => ⟨?_, ?_⟩, ?_, ?_⟩
  · rw [NpuResult.getIngressLinkInfo]
    rcases h : r.ingressLinksInfo.find? (fun e => decide (e.1 = peer)) with _ | e
    · simp [h]
    · simp [h, mapAt]
  · rw [NpuResult.getEgressLinkInfo]
    rcases h : r.egressLinksInfo.find? (fun e => decide (e.1 = peer)) with _ | e
    · simp [h]
    · simp [h, mapAt]
  · intro h
    rw [NpuResult.getIngressLinkInfo]
    have hnone : ((NpuResult.build npu n chunksCount conn).ingressLinksInfo.find?
        (fun e => decide (e.1 = peer))) = none := by
      rw [List.find?_eq_none]
      intro e he
      simp only [NpuResult.build, List.mem_filterMap, List.mem_range] at he
      obtain ⟨dest, -, hdest⟩ := he
      by_cases h1 : npu = dest
      · simp [h1] at hdest
      · by_cases h2 : conn dest npu
        · simp [h1, h2] at hdest
          rcases h with h | h
          · subst hdest
            simp only [decide_eq_true_eq]
            intro hd
            rw [hd] at h2
            rw [h] at h2
            exact Bool.false_ne_true h2
          · subst hdest h
            simp only [decide_eq_true_eq]
            intro hd
            exact h1 hd.symm
        · simp [h1, h2] at hdest
    simp [hnone]
  · intro h
    rw [NpuResult.getEgressLinkInfo]
    have hnone : ((NpuResult.build npu n chunksCount conn).egressLinksInfo.find?
        (fun e => decide (e.1 = peer))) = none := by
      rw [List.find?_eq_none]
      intro e he
      simp only [NpuResult.build, List.mem_filterMap, List.mem_range] at he
      obtain ⟨dest, -, hdest⟩ := he
      by_cases h1 : npu = dest
      · simp [h1] at hdest
      · by_cases h2 : conn npu dest
        · simp [h1, h2] at hdest
          rcases h with h | h
          · subst hdest
            simp only [decide_eq_true_eq]
            intro hd
            rw [hd] at h2
            rw [h] at h2
            exact Bool.false_ne_true h2
          · subst hdest h
            simp only [decide_eq_true_eq]
            intro hd
            exact h1 hd.symm
        · simp [h1, h2] at hdest
    simp [hnone]

/-- C10 witness: on a concrete 3-NPU topology with only the link `1 → 0`,
NPU 0's result answers every in-range peer query without failing, and peer 2
(no link in either direction) yields the empty list both ways. -/
theorem npu_result_link_info_total_witness :
    (2 < 3) ∧
    ((∀ r : NpuResult, (r.getIngressLinkInfo 2).isSome ∧
        (r.getEgressLinkInfo 2).isSome) ∧
      ((fun s d => decide (s = 1) && decide (d = 0)) 2 0 = false ∨ 2 = 0 →
        (NpuResult.build 0 3 3 (fun s d => decide (s = 1) && decide (d = 0))).getIngressLinkInfo 2
          = some []) ∧
      ((fun s d => decide (s = 1) && decide (d = 0)) 0 2 = false ∨ 2 = 0 →
        (NpuResult.build 0 3 3 (fun s d => decide (s = 1) && decide (d = 0))).getEgressLinkInfo 2
          = some [])) :=
  ⟨by decide,
    npu_result_link_info_total 3 3 0 2 (fun s d => decide (s = 1) && decide (d = 0)) (by decide)⟩

/-- A binary64 value is non-negative. -/
theorem F64.toRat_nonneg (x : F64) : 0 ≤ x.toRat := by
  unfold F64.toRat
  positivity

/-- The truncation of a non-negative binary64 value is the floor of its
rational value. -/
theorem f64Trunc_floor (x : F64) : f64Trunc x = (⌊x.toRat⌋).toNat := by
  unfold f64Trunc F64.toRat
  by_cases he : 0 ≤ x.e
  · rw [if_pos he]
    have hcast : (x.m : ℚ) * (2 : ℚ) ^ x.e = ((x.m * 2 ^ x.e.toNat : ℕ) : ℚ) := by
      obtain ⟨k, hk⟩ : ∃ k : ℕ, x.e = (k : ℤ) := ⟨x.e.toNat, by omega⟩
      rw [hk, zpow_natCast]
      push_cast [Int.toNat_natCast]
      ring
    rw [hcast, Int.floor_natCast, Int.toNat_natCast]
  · rw [if_neg he]
    have hcast : (x.m : ℚ) * (2 : ℚ) ^ x.e
        = ((x.m : ℕ) : ℚ) / ((2 ^ (-x.e).toNat : ℕ) : ℚ) := by
      obtain ⟨k, hk⟩ : ∃ k : ℕ, x.e = -(k : ℤ) := ⟨(-x.e).toNat, by omega⟩
      rw [hk, zpow_neg, zpow_natCast, div_eq_mul_inv]
      push_cast [Int.toNat_natCast, neg_neg]
      ring
    rw [hcast, Rat.floor_natCast_div_natCast]
    have hdiv : ((x.m / 2 ^ (-x.e).toNat : ℕ) : ℤ)
        = ((x.m : ℕ) : ℤ) / ((2 ^ (-x.e).toNat : ℕ) : ℤ) := by
      push_cast
      rfl
    rw [← hdiv, Int.toNat_natCast]

set_option maxRecDepth 8000 in
/-- C4 counterexample: binary64 rounding makes the program return less than
the floor of the exact α–β value.  On `exTopo` (latency 0 ns, bandwidth
1 GB/s) with chunk size 2²⁰ B the exact formula gives the integer
976562500 ps, yet the stored link delay is 976562499 ps, so `getLinkDelay`
does not return the formula value. -/
theorem link_delay_formula_counterexample :
    (exTopo.setChunkSize (2 ^ 20)).getLinkDelay 0 1 = 976562499 ∧
    exactLinkDelayPS 0 1 (2 ^ 20) = (976562500 : ℚ) ∧
    ((exTopo.setChunkSize (2 ^ 20)).getLinkDelay 0 1 : ℚ) ≠
      exactLinkDelayPS 0 1 (2 ^ 20) := by
  have h1 : (exTopo.setChunkSize (2 ^ 20)).getLinkDelay 0 1 = 976562499 := by decide
  have h2 : exactLinkDelayPS 0 1 (2 ^ 20) = (976562500 : ℚ) := by
    unfold exactLinkDelayPS
    norm_num
  refine ⟨h1, h2, ?_⟩
  rw [h1, h2]
  norm_num

/-- C4 (amended): after `setChunkSize(bytes)`, for every connected pair the
stored link delay is the α–β formula evaluated in binary64 — every operation
rounded to nearest, ties to even — truncated toward zero by the final
`static_cast`: `getLinkDelay = ⌊FP⌋` and `getLinkDelay ≤ FP < getLinkDelay + 1`
for the floating-point value `FP` of the chain, which can differ from the
exact real-arithmetic value of the formula. -/
theorem link_delay_formula_amended (t : Topology) (bytes : Nat) (s d : Nat)
    (hc : t.connected s d = true) :
    (((t.setChunkSize bytes).getLinkDelay s d : ℚ) ≤ (t.linkDelayPS bytes s d).toRat) ∧
    ((t.linkDelayPS bytes s d).toRat < ((t.setChunkSize bytes).getLinkDelay s d : ℚ) + 1) ∧
    (t.setChunkSize bytes).getLinkDelay s d = (⌊(t.linkDelayPS bytes s d).toRat⌋).toNat := by
  have hcompute : (t.setChunkSize bytes).getLinkDelay s d
      = (⌊(t.linkDelayPS bytes s d).toRat⌋).toNat := by
    show (if t.connected s d then t.computeLinkDelay bytes s d else t.linkDelays s d) = _
    rw [if_pos hc]
    exact f64Trunc_floor _
  have hfl0 : (0 : ℤ) ≤ ⌊(t.linkDelayPS bytes s d).toRat⌋ :=
    Int.floor_nonneg.mpr (F64.toRat_nonneg _)
  have hcast : (((⌊(t.linkDelayPS bytes s d).toRat⌋).toNat : Nat) : ℚ)
      = ((⌊(t.linkDelayPS bytes s d).toRat⌋ : ℤ) : ℚ) := by
    exact_mod_cast Int.toNat_of_nonneg hfl0
  refine ⟨?_, ?_, hcompute⟩
  · rw [hcompute, hcast]
    exact Int.floor_le _
  · rw [hcompute, hcast]
    exact Int.lt_floor_add_one _

set_option maxRecDepth 8000 in
/-- C4 witness: on `s1Topo` (spec scenario S1: latency 500 ns, bandwidth
50 GB/s, chunk size 1 MiB) the binary64 chain truncates to 20031250 ps, the
stored delay; the truncation bracket around the floating-point value holds. -/
theorem link_delay_formula_amended_witness :
    s1Topo.connected 0 1 = true ∧
    ((((s1Topo.setChunkSize (2 ^ 20)).getLinkDelay 0 1 : ℚ) ≤
        (s1Topo.linkDelayPS (2 ^ 20) 0 1).toRat) ∧
      ((s1Topo.linkDelayPS (2 ^ 20) 0 1).toRat <
        ((s1Topo.setChunkSize (2 ^ 20)).getLinkDelay 0 1 : ℚ) + 1) ∧
      (s1Topo.setChunkSize (2 ^ 20)).getLinkDelay 0 1
        = (⌊(s1Topo.linkDelayPS (2 ^ 20) 0 1).toRat⌋).toNat) ∧
    (s1Topo.setChunkSize (2 ^ 20)).getLinkDelay 0 1 = 20031250 :=
  ⟨by decide, link_delay_formula_amended s1Topo (2 ^ 20) 0 1 (by decide), by decide⟩

/-- A strictly key-sorted list contains `[x, y]` as a sublist whenever both are
members and `key x < key y`. -/
theorem pair_sublist_of_sorted_keys {α : Type} {key : α → Nat} :
    ∀ {l : List α}, l.Pairwise (fun a b => key a < key b) →
      ∀ {x y : α}, x ∈ l → y ∈ l → key x < key y → [x, y].Sublist l
  | [], _, x, _, hx, _, _ => absurd hx (List.not_mem_nil x)
  | a :: t, h, x, y, hx, hy, hxy => by
    rw [List.pairwise_cons] at h
    rcases List.mem_cons.mp hx with rfl | hx'
    · rcases List.mem_cons.mp hy with rfl | hy'
      · exact absurd hxy (lt_irrefl _)
      · exact List.Sublist.cons₂ x (List.singleton_sublist.mpr hy')
    · rcases List.mem_cons.mp hy with rfl | hy'
      · exact absurd (lt_trans (h.1 x hx') hxy) (lt_irrefl _)
      · exact List.Sublist.cons a (pair_sublist_of_sorted_keys h.2 hx' hy' hxy)

/-- A duplicate-free list cannot contain two distinct elements in both orders. -/
theorem eq_of_pair_sublists_nodup {α : Type} {l : List α} (hnd : l.Nodup) {x y : α}
    (h1 : [x, y].Sublist l) (h2 : [y, x].Sublist l) : x = y := by
  induction l with
  | nil => exact absurd (List.eq_nil_of_sublist_nil h1) (by simp)
  | cons a t ih =>
    rw [List.nodup_cons] at hnd
    cases h1 with
    | cons _ h1' =>
      cases h2 with
      | cons _ h2' => exact ih hnd.2 h1' h2'
      | cons₂ _ h2' =>
        exact absurd (h1'.subset (by simp)) hnd.1
    | cons₂ _ h1' =>
      cases h2 with
      | cons _ h2' =>
        exact absurd (h2'.subset (by simp)) hnd.1
      | cons₂ _ h2' => rfl

/-- Stability of the greedy sort: on pairs with strictly ascending first
components, sorting by descending second component (the C++
`a.second > b.second` comparator, modelled as a stable sort) coincides with
sorting by the spec's order, descending delay with ties broken by ascending
NpuID. -/
theorem insertionSort_desc_eq_spec (l : List (Nat × Nat))
    (hkeys : l.Pairwise (fun a b => a.1 < b.1)) :
    l.insertionSort (fun a b => b.2 ≤ a.2) = l.insertionSort SpecLE := by
  haveI i1 : IsTotal (Nat × Nat) (fun a b : Nat × Nat => b.2 ≤ a.2) :=
    ⟨fun a b => le_total b.2 a.2⟩
  haveI i2 : IsTrans (Nat × Nat) (fun a b : Nat × Nat => b.2 ≤ a.2) :=
    ⟨fun _ _ _ hab hbc => le_trans hbc hab⟩
  haveI i3 : IsTotal (Nat × Nat) SpecLE := by
    constructor
    intro a b
    rcases lt_trichotomy a.2 b.2 with h | h | h
    · exact Or.inr (Or.inl h)
    · rcases le_total a.1 b.1 with h1 | h1
      · exact Or.inl (Or.inr ⟨h, h1⟩)
      · exact Or.inr (Or.inr ⟨h.symm, h1⟩)
    · exact Or.inl (Or.inl h)
  haveI i4 : IsTrans (Nat × Nat) SpecLE := by
    constructor
    intro a b c hab hbc
    rcases hab with hab | ⟨hab1, hab2⟩
    · rcases hbc with hbc | ⟨hbc1, hbc2⟩
      · exact Or.inl (lt_trans hbc hab)
      · exact Or.inl (hbc1 ▸ hab)
    · rcases hbc with hbc | ⟨hbc1, hbc2⟩
      · exact Or.inl (hab1 ▸ hbc)
      · exact Or.inr ⟨hab1.trans hbc1, le_trans hab2 hbc2⟩
  haveI i5 : IsAntisymm (Nat × Nat) SpecLE := by
    constructor
    intro a b hab hba
    rcases hab with hab | ⟨hab1, hab2⟩
    · rcases hba with hba | ⟨hba1, hba2⟩
      · exact absurd (lt_trans hab hba) (lt_irrefl _)
      · exact absurd (hba1 ▸ hab) (lt_irrefl _)
    · rcases hba with hba | ⟨hba1, hba2⟩
      · exact absurd (hab1 ▸ hba) (lt_irrefl _)
      · exact Prod.ext (le_antisymm hab2 hba2) hab1
  have hnd : l.Nodup :=
    hkeys.imp (fun h heq => absurd (heq ▸ h) (lt_irrefl _))
  have hsorted1 : (l.insertionSort (fun a b => b.2 ≤ a.2)).Pairwise SpecLE := by
    rw [List.pairwise_iff_forall_sublist]
    intro a b hsub
    have hle1 : b.2 ≤ a.2 :=
      List.pairwise_iff_forall_sublist.mp
        (List.sorted_insertionSort (fun a b : Nat × Nat => b.2 ≤ a.2) l) hsub
    rcases lt_or_eq_of_le hle1 with hlt | heq
    · exact Or.inl hlt
    · by_cases hid : a.1 ≤ b.1
      · exact Or.inr ⟨heq.symm, hid⟩
      · push_neg at hid
        have ha : a ∈ l := (List.mem_insertionSort _).mp (hsub.subset (by simp))
        have hb : b ∈ l := (List.mem_insertionSort _).mp (hsub.subset (by simp))
        have hsubl : [b, a].Sublist l :=
          pair_sublist_of_sorted_keys hkeys hb ha hid
        have hsub' : [b, a].Sublist (l.insertionSort (fun a b => b.2 ≤ a.2)) :=
          List.pair_sublist_insertionSort heq.ge hsubl
        have hndm : (l.insertionSort (fun a b => b.2 ≤ a.2)).Nodup :=
          ((List.perm_insertionSort _ l).nodup_iff).mpr hnd
        have : a = b := eq_of_pair_sublists_nodup hndm hsub hsub'
        exact absurd (congrArg Prod.fst this) (ne_of_gt hid)
  have hsorted2 : (l.insertionSort SpecLE).Pairwise SpecLE :=
    List.sorted_insertionSort SpecLE l
  have hperm : (l.insertionSort (fun a b => b.2 ≤ a.2)).Perm (l.insertionSort SpecLE) :=
    (List.perm_insertionSort _ l).trans (List.perm_insertionSort SpecLE l).symm
  exact List.eq_of_perm_of_sorted hperm hsorted1 hsorted2

/-- An insertion sort by a total, transitive order refining non-increasing
delays satisfies the `std::sort` contract. -/
theorem validSort_insertionSort (r : Nat × Nat → Nat × Nat → Prop)
    [DecidableRel r] (htot : ∀ a b, r a b ∨ r b a)
    (htrans : ∀ a b c, r a b → r b c → r a c)
    (himp : ∀ a b, r a b → b.2 ≤ a.2) :
    ValidSort (fun l => l.insertionSort r) := by
  intro l
  refine ⟨List.perm_insertionSort r l, ?_⟩
  haveI : IsTotal (Nat × Nat) r := ⟨htot⟩
  haveI : IsTrans (Nat × Nat) r := ⟨htrans⟩
  exact (List.sorted_insertionSort r l).imp (fun hab => himp _ _ hab)

/-- The NpuID-ascending tie-break order conforms to the `std::sort`
contract. -/
theorem validSort_specLE : ValidSort (fun l => l.insertionSort SpecLE) := by
  refine validSort_insertionSort SpecLE ?_ ?_ ?_
  · intro a b
    unfold SpecLE
    omega
  · intro a b c
    unfold SpecLE
    omega
  · intro a b
    unfold SpecLE
    omega

/-- The NpuID-descending tie-break order conforms to the `std::sort` contract
just as well. -/
theorem validSort_specGE : ValidSort sortDescNpu := by
  refine validSort_insertionSort SpecGE ?_ ?_ ?_
  · intro a b
    unfold SpecGE
    omega
  · intro a b c
    unfold SpecGE
    omega
  · intro a b
    unfold SpecGE
    omega

/-- Two permutations of the same pair list, each arranged with non-increasing
delays, carry the same delay sequence. -/
theorem map_snd_eq_of_sorted_desc {l1 l2 : List (Nat × Nat)} (hp : l1.Perm l2)
    (h1 : l1.Pairwise (fun a b => b.2 ≤ a.2))
    (h2 : l2.Pairwise (fun a b => b.2 ≤ a.2)) :
    l1.map Prod.snd = l2.map Prod.snd := by
  haveI : IsAntisymm Nat (fun a b => b ≤ a) := ⟨fun a b hab hba => le_antisymm hba hab⟩
  have h1s : List.Sorted (fun a b : Nat => b ≤ a) (l1.map Prod.snd) :=
    List.pairwise_map.mpr h1
  have h2s : List.Sorted (fun a b : Nat => b ≤ a) (l2.map Prod.snd) :=
    List.pairwise_map.mpr h2
  exact List.eq_of_perm_of_sorted (hp.map Prod.snd) h1s h2s

/-- C1 counterexample: `std::sort` fixes no order among elements whose link
delays tie, and the claimed NpuID-ascending tie-break is not implied by its
contract.  With candidates `[0, 1]`, equal delays and destination 2, the
NpuID-ascending arrangement the claim asserts yields NPU 1 (as
`selectSourceNpuSpec` computes), but the equally conforming NpuID-descending
arrangement yields NPU 0 — two valid `std::sort` outcomes, two different
selections. -/
theorem greedy_select_source_npu_counterexample :
    ValidSort (fun l => l.insertionSort SpecLE) ∧ ValidSort sortDescNpu ∧
    selectSourceNpuWith (fun l => l.insertionSort SpecLE) (fun _ _ => 5) [0, 1] 2 = 1 ∧
    selectSourceNpuWith sortDescNpu (fun _ _ => 5) [0, 1] 2 = 0 ∧
    selectSourceNpuSpec (fun _ _ => 5) [0, 1] 2 = 1 :=
  ⟨validSort_specLE, validSort_specGE, by decide, by decide, by decide⟩

/-- C1 (amended): for every sorting function satisfying the `std::sort`
contract, a single candidate is returned directly; with at least two
candidates the returned NPU is one of the candidates and its link delay is
the second-largest candidate delay (the delay at index 1 of any
non-increasing arrangement) — but which of the delay-tied candidates is
returned is not determined by the contract. -/
theorem greedy_select_source_npu_amended
    (sortFn : List (Nat × Nat) → List (Nat × Nat)) (hvalid : ValidSort sortFn)
    (delay : Nat → Nat → Nat) (cands : List Nat) (dest : Nat) :
    (∀ a, cands = [a] → selectSourceNpuWith sortFn delay cands dest = a) ∧
    (2 ≤ cands.length →
      selectSourceNpuWith sortFn delay cands dest ∈ cands ∧
      delay (selectSourceNpuWith sortFn delay cands dest) dest
        = (((cands.map (fun s => (s, delay s dest))).insertionSort
            (fun a b => b.2 ≤ a.2)).getD 1 (0, 0)).2) := by
  constructor
  · rintro a rfl
    simp [selectSourceNpuWith]
  · intro h2
    have hlen1 : ¬ cands.length = 1 := by omega
    rw [selectSourceNpuWith, if_neg hlen1]
    obtain ⟨hperm, hsorted⟩ := hvalid (cands.map (fun s => (s, delay s dest)))
    set l := cands.map (fun s => (s, delay s dest)) with hl
    have hlenl : l.length = cands.length := by
      rw [hl, List.length_map]
    have hlen : 1 < (sortFn l).length := by
      rw [hperm.length_eq, hlenl]
      omega
    have hgetd : (sortFn l).getD 1 (0, 0) = (sortFn l)[1] :=
      List.getD_eq_getElem (sortFn l) (0, 0) hlen
    have hmem : (sortFn l)[1] ∈ sortFn l := List.getElem_mem hlen
    have hmeml : (sortFn l)[1] ∈ l := hperm.subset hmem
    have hmeml2 : (sortFn l)[1] ∈ cands.map (fun s => (s, delay s dest)) := by
      rw [← hl]
      exact hmeml
    obtain ⟨s, hs, hpair⟩ := List.mem_map.mp hmeml2
    constructor
    · rw [hgetd, ← hpair]
      exact hs
    · have hd : delay ((sortFn l)[1]).1 dest = ((sortFn l)[1]).2 := by
        rw [← hpair]
      have hsort2 : (l.insertionSort (fun a b => b.2 ≤ a.2)).Pairwise
          (fun a b => b.2 ≤ a.2) := by
        haveI : IsTotal (Nat × Nat) (fun a b : Nat × Nat => b.2 ≤ a.2) :=
          ⟨fun a b => le_total b.2 a.2⟩
        haveI : IsTrans (Nat × Nat) (fun a b : Nat × Nat => b.2 ≤ a.2) :=
          ⟨fun a b c hab hbc => le_trans hbc hab⟩
        exact List.sorted_insertionSort _ l
      have hsec : (sortFn l).map Prod.snd
          = (l.insertionSort (fun a b => b.2 ≤ a.2)).map Prod.snd :=
        map_snd_eq_of_sorted_desc
          (hperm.trans (List.perm_insertionSort _ l).symm) hsorted hsort2
      have hlen2 : 1 < (l.insertionSort (fun a b => b.2 ≤ a.2)).length := by
        rw [List.length_insertionSort, hlenl]
        omega
      have hidx : ((sortFn l)[1]).2 = ((l.insertionSort (fun a b => b.2 ≤ a.2))[1]).2 := by
        have h1 : ((sortFn l).map Prod.snd).getD 1 0
            = ((l.insertionSort (fun a b => b.2 ≤ a.2)).map Prod.snd).getD 1 0 := by
          rw [hsec]
        rw [List.getD_eq_getElem _ _ (by simpa using hlen),
            List.getD_eq_getElem _ _ (by simpa using hlen2)] at h1
        simpa using h1
      rw [hgetd, hd, hidx, List.getD_eq_getElem _ _ hlen2]

/-- C1 witness: candidates `[0, 1, 2]` toward destination 9 with delays
`0 ↦ 5, 1 ↦ 5, 2 ↦ 7`, arranged by the conforming NpuID-descending order
`[(2,7), (1,5), (0,5)]`: index 1 returns NPU 1, a candidate whose delay 5 is
the second-largest — while the NpuID-ascending arrangement would return
NPU 0. -/
theorem greedy_select_source_npu_amended_witness :
    ValidSort sortDescNpu ∧
    ((∀ a, ([0, 1, 2] : List Nat) = [a] →
        selectSourceNpuWith sortDescNpu (fun s _ => if s = 2 then 7 else 5) [0, 1, 2] 9
          = a) ∧
      (2 ≤ ([0, 1, 2] : List Nat).length →
        selectSourceNpuWith sortDescNpu (fun s _ => if s = 2 then 7 else 5) [0, 1, 2] 9
            ∈ [0, 1, 2] ∧
        (fun s _ => if s = 2 then 7 else 5)
            (selectSourceNpuWith sortDescNpu (fun s _ => if s = 2 then 7 else 5)
              [0, 1, 2] 9) 9
          = ((([0, 1, 2].map
                (fun s => (s, (fun s _ => if s = 2 then 7 else 5) s 9))).insertionSort
              (fun a b => b.2 ≤ a.2)).getD 1 (0, 0)).2)) ∧
    selectSourceNpuWith sortDescNpu (fun s _ => if s = 2 then 7 else 5) [0, 1, 2] 9 = 1 :=
  ⟨validSort_specGE,
    greedy_select_source_npu_amended sortDescNpu validSort_specGE
      (fun s _ => if s = 2 then 7 else 5) [0, 1, 2] 9,
    by decide⟩

/-- Lookup on a cons cell. -/
theorem condLookup_cons (e : Nat × List Nat) (q : Cond) (x : Nat) :
    condLookup (e :: q) x = if e.1 = x then e.2 else condLookup q x := by
  by_cases h : e.1 = x
  · simp [condLookup, List.find?_cons, h]
  · simp [condLookup, List.find?_cons, h]

/-- Key presence on a cons cell. -/
theorem condHasKey_cons (e : Nat × List Nat) (q : Cond) (x : Nat) :
    condHasKey (e :: q) x = if e.1 = x then true else condHasKey q x := by
  by_cases h : e.1 = x
  · simp [condHasKey, List.find?_cons, h]
  · simp [condHasKey, List.find?_cons, h]

/-- A condition without an entry for `d` looks up to the empty set. -/
theorem condLookup_eq_nil_of_not_hasKey {q : Cond} {d : Nat}
    (h : condHasKey q d = false) : condLookup q d = [] := by
  unfold condHasKey at h
  unfold condLookup
  rcases hf : q.find? (fun e => decide (e.1 = d)) with _ | e
  · simp [hf]
  · rw [hf] at h
    simp at h

/-- Erasing the key `d` leaves every other lookup unchanged. -/
theorem condLookup_filter_ne (q : Cond) (d x : Nat) :
    condLookup (q.filter (fun e => !(decide (e.1 = d)))) x =
      if x = d then [] else condLookup q x := by
  induction q with
  | nil => simp [condLookup]
  | cons e q ih =>
    by_cases he : e.1 = d
    · rw [List.filter_cons_of_neg (by simp [he])]
      rw [ih, condLookup_cons]
      by_cases hx : x = d
      · simp [hx]
      · have : ¬ e.1 = x := by rw [he]; exact fun h => hx h.symm
        simp [hx, this]
    · rw [List.filter_cons_of_pos (by simp [he])]
      rw [condLookup_cons, condLookup_cons, ih]
      by_cases hex : e.1 = x
      · have : ¬ x = d := by rw [← hex]; exact fun h => he h
        simp [hex, this]
      · simp [hex]

/-- Erasing the key `d` removes exactly that key. -/
theorem condHasKey_filter_ne (q : Cond) (d x : Nat) :
    condHasKey (q.filter (fun e => !(decide (e.1 = d)))) x =
      if x = d then false else condHasKey q x := by
  induction q with
  | nil => simp [condHasKey]
  | cons e q ih =>
    by_cases he : e.1 = d
    · rw [List.filter_cons_of_neg (by simp [he])]
      rw [ih, condHasKey_cons]
      by_cases hx : x = d
      · simp [hx]
      · have : ¬ e.1 = x := by rw [he]; exact fun h => hx h.symm
        simp [hx, this]
    · rw [List.filter_cons_of_pos (by simp [he])]
      rw [condHasKey_cons, condHasKey_cons, ih]
      by_cases hex : e.1 = x
      · have : ¬ x = d := by rw [← hex]; exact fun h => he h
        simp [hex, this]
      · simp [hex]

/-- Replacing the value stored at key `d` changes that lookup (when the key is
present) and no other. -/
theorem condLookup_map_replace (q : Cond) (d : Nat) (l' : List Nat) (x : Nat) :
    condLookup (q.map (fun e => if e.1 = d then (d, l') else e)) x =
      if x = d then (if condHasKey q d then l' else []) else condLookup q x := by
  induction q with
  | nil => simp [condLookup, condHasKey]
  | cons e q ih =>
    simp only [List.map_cons, condLookup_cons, condHasKey_cons]
    by_cases he : e.1 = d
    · by_cases hx : x = d
      · subst hx
        simp [he, ih]
      · have hdx : ¬ (d : Nat) = x := fun h => hx h.symm
        simp [he, hx, hdx, ih]
    · by_cases hx : x = d
      · subst hx
        simp [he, ih]
      · by_cases hex : e.1 = x
        · simp [he, hx, hex]
        · simp [he, hx, hex, ih]

/-- Replacing the value stored at a key does not change the key set. -/
theorem condHasKey_map_replace (q : Cond) (d : Nat) (l' : List Nat) (x : Nat) :
    condHasKey (q.map (fun e => if e.1 = d then (d, l') else e)) x = condHasKey q x := by
  induction q with
  | nil => simp [condHasKey]
  | cons e q ih =>
    simp only [List.map_cons, condHasKey_cons]
    by_cases he : e.1 = d
    · by_cases hx : d = x
      · have hex : e.1 = x := he.trans hx
        simp [he, hx, hex]
      · have hex : ¬ e.1 = x := by rw [he]; exact hx
        simp [he, hx, hex, ih]
    · by_cases hex : e.1 = x
      · have hxd : ¬ x = d := fun h => he (hex.trans h)
        simp [he, hex, hxd]
      · simp [he, hex, ih]

/-- The effect of `markLinkChunkMatch`'s postcondition update on lookups:
the destination's chunk set loses the chunk, every other entry is unchanged. -/
theorem condLookup_condErase (q : Cond) (d c x : Nat) :
    condLookup (condErase q d c) x =
      if x = d then (condLookup q d).erase c else condLookup q x := by
  unfold condErase
  by_cases hemp : ((condLookup q d).erase c).isEmpty
  · rw [if_pos hemp, condLookup_filter_ne]
    by_cases hx : x = d
    · rw [if_pos hx, if_pos hx]
      rw [List.isEmpty_iff] at hemp
      exact hemp.symm
    · rw [if_neg hx, if_neg hx]
  · rw [if_neg hemp, condLookup_map_replace]
    by_cases hx : x = d
    · rw [if_pos hx, if_pos hx]
      have hkey : condHasKey q d = true := by
        by_contra h
        have h0 : condHasKey q d = false := by
          cases hk : condHasKey q d
          · rfl
          · exact absurd hk h
        rw [condLookup_eq_nil_of_not_hasKey h0] at hemp
        simp at hemp
      rw [if_pos hkey]
    · rw [if_neg hx, if_neg hx]

/-- The effect of `markLinkChunkMatch`'s postcondition update on the key set:
the destination keeps its entry exactly when its chunk set stays non-empty. -/
theorem condHasKey_condErase (q : Cond) (d c : Nat) :
    condHasKey (condErase q d c) d = !((condLookup q d).erase c).isEmpty := by
  unfold condErase
  by_cases hemp : ((condLookup q d).erase c).isEmpty
  · rw [if_pos hemp, condHasKey_filter_ne, if_pos rfl, hemp]
    rfl
  · rw [if_neg hemp, condHasKey_map_replace]
    have hkey : condHasKey q d = true := by
      by_contra h
      have h0 : condHasKey q d = false := by
        cases hk : condHasKey q d
        · rfl
        · exact absurd hk h
      rw [condLookup_eq_nil_of_not_hasKey h0] at hemp
      simp at hemp
    rw [hkey]
    cases he : ((condLookup q d).erase c).isEmpty
    · rfl
    · exact absurd he hemp

/-- C8: every link-chunk match of chunk `c` onto destination `n` — in the
greedy synthesizer's `markLinkChunkMatch` and in the beam synthesizer's —
adds `c` to `n`'s working precondition, erases `c` from `n`'s working
postcondition entry, leaves every other NPU's entries unchanged, and keeps
`n` in the working postcondition map exactly when its remaining chunk set is
non-empty. -/
theorem mark_link_chunk_match_updates (delay : Nat → Nat → Nat)
    (T src dest chunk : Nat) (st : GState) (b : BState) :
    (∀ x c, c ∈ (markLinkChunkMatchG delay src dest chunk st).pre x ↔
      ((x = dest ∧ c = chunk) ∨ c ∈ st.pre x)) ∧
    (∀ x, condLookup (markLinkChunkMatchG delay src dest chunk st).post x =
      if x = dest then (condLookup st.post dest).erase chunk
      else condLookup st.post x) ∧
    (condHasKey (markLinkChunkMatchG delay src dest chunk st).post dest = true ↔
      (condLookup st.post dest).erase chunk ≠ []) ∧
    (∀ x c, c ∈ (markLinkChunkMatchB T src dest chunk b).pre x ↔
      ((x = dest ∧ c = chunk) ∨ c ∈ b.pre x)) ∧
    (∀ x, condLookup (markLinkChunkMatchB T src dest chunk b).post x =
      if x = dest then (condLookup b.post dest).erase chunk
      else condLookup b.post x) ∧
    (condHasKey (markLinkChunkMatchB T src dest chunk b).post dest = true ↔
      (condLookup b.post dest).erase chunk ≠ []) := by
  refine ⟨?_, ?_, ?_, ?_, ?_, ?_⟩
  · intro x c
    show c ∈ (if x = dest then (st.pre dest).insert chunk else st.pre x) ↔ _
    by_cases hx : x = dest
    · subst hx
      rw [if_pos rfl, List.mem_insert_iff]
      constructor
      · rintro (rfl | h)
        · exact Or.inl ⟨rfl, rfl⟩
        · exact Or.inr h
      · rintro (⟨-, rfl⟩ | h)
        · exact Or.inl rfl
        · exact Or.inr h
    · rw [if_neg hx]
      constructor
      · exact Or.inr
      · rintro (⟨h, -⟩ | h)
        · exact absurd h hx
        · exact h
  · intro x
    exact condLookup_condErase st.post dest chunk x
  · rw [show (markLinkChunkMatchG delay src dest chunk st).post
        = condErase st.post dest chunk from rfl]
    rw [condHasKey_condErase]
    simp [List.isEmpty_eq_false]
  · intro x c
    show c ∈ (if x = dest then (b.pre dest).insert chunk else b.pre x) ↔ _
    by_cases hx : x = dest
    · subst hx
      rw [if_pos rfl, List.mem_insert_iff]
      constructor
      · rintro (rfl | h)
        · exact Or.inl ⟨rfl, rfl⟩
        · exact Or.inr h
      · rintro (⟨-, rfl⟩ | h)
        · exact Or.inl rfl
        · exact Or.inr h
    · rw [if_neg hx]
      constructor
      · exact Or.inr
      · rintro (⟨h, -⟩ | h)
        · exact absurd h hx
        · exact h
  · intro x
    exact condLookup_condErase b.post dest chunk x
  · rw [show (markLinkChunkMatchB T src dest chunk b).post
        = condErase b.post dest chunk from rfl]
    rw [condHasKey_condErase]
    simp [List.isEmpty_eq_false]

/-- The greedy source selection always picks one of the candidates. -/
theorem selectSourceNpu_mem (delay : Nat → Nat → Nat) (cands : List Nat) (dest : Nat)
    (hne : cands ≠ []) : selectSourceNpu delay cands dest ∈ cands := by
  rw [selectSourceNpu]
  by_cases h1 : cands.length = 1
  · rw [if_pos h1]
    cases cands with
    | nil => exact absurd rfl hne
    | cons a t => exact List.mem_cons_self a t
  · rw [if_neg h1]
    show (((cands.map (fun s => (s, delay s dest))).insertionSort
        (fun a b => b.2 ≤ a.2)).getD 1 (0, 0)).1 ∈ cands
    have hlen2 : 2 ≤ cands.length := by
      cases cands with
      | nil => exact absurd rfl hne
      | cons a t =>
        cases t with
        | nil => exact absurd rfl h1
        | cons b t' => simp
    have h1lt : 1 < ((cands.map (fun s => (s, delay s dest))).insertionSort
        (fun a b => b.2 ≤ a.2)).length := by
      rw [List.length_insertionSort, List.length_map]
      omega
    have hmem : ((cands.map (fun s => (s, delay s dest))).insertionSort
        (fun a b => b.2 ≤ a.2)).getD 1 (0, 0) ∈
        (cands.map (fun s => (s, delay s dest))).insertionSort (fun a b => b.2 ≤ a.2) := by
      rw [List.getD_eq_getElem _ _ h1lt]
      exact List.getElem_mem h1lt
    rw [List.mem_insertionSort] at hmem
    obtain ⟨s, hs, heq⟩ := List.mem_map.mp hmem
    rw [← heq]
    exact hs

/-- Every match produced by the greedy matching loop was either already present
or was made at the loop's event time, records `currentTime - linkDelay` as its
transmission start, and takes its chunk from a source holding it in the
precondition snapshot `P0`. -/
theorem matchLoopG_result (n : Nat) (conn : Nat → Nat → Bool) (delay : Nat → Nat → Nat)
    (o : Nat → Nat) (P0 : Nat → List Nat) :
    ∀ fuel q st, ∀ m ∈ (matchLoopG n conn delay o P0 fuel q st).result,
      m ∈ st.result ∨ (m.time = st.time ∧
        m.startTime = (st.time : Int) - (delay m.src m.dest : Int) ∧
        m.chunk ∈ P0 m.src) := by
  intro fuel
  induction fuel with
  | zero => intro q st m hm; exact Or.inl hm
  | succ fuel ih =>
    intro q st m hm
    rw [matchLoopG] at hm
    by_cases hq : q.isEmpty
    · rw [if_pos hq] at hm
      exact Or.inl hm
    · rw [if_neg hq] at hm
      rcases hsel : selectPostcondition o st.ctr q with ⟨dest, chunk, q', ctr'⟩
      rw [hsel] at hm
      dsimp only at hm
      by_cases hc : (checkCandidateSourceNpus chunk P0
          (TEN.backtrackTEN n conn st.ten dest)).isEmpty
      · rw [if_pos hc] at hm
        exact ih q' { st with ctr := ctr' } m hm
      · rw [if_neg hc] at hm
        rcases ih q' _ m hm with hold | hnew
        · rcases List.mem_append.mp hold with hold' | hsingle
          · exact Or.inl hold'
          · rcases List.mem_singleton.mp hsingle with rfl
            refine Or.inr ⟨rfl, rfl, ?_⟩
            have hcand : selectSourceNpu delay
                (checkCandidateSourceNpus chunk P0 (TEN.backtrackTEN n conn st.ten dest))
                dest ∈ checkCandidateSourceNpus chunk P0
                  (TEN.backtrackTEN n conn st.ten dest) :=
              selectSourceNpu_mem _ _ _ (by
                intro h
                rw [h] at hc
                exact hc rfl)
            have := List.of_mem_filter hcand
            exact of_decide_eq_true this
        · exact Or.inr hnew

/-- C7: within one invocation of `linkChunkMatching` the candidate check for
every match is evaluated against the snapshot of the working precondition taken
at the start of the invocation: every newly recorded match carries a chunk its
source already held in that snapshot, so a chunk deposited at an NPU `d` by an
earlier match of the same event is never re-forwarded from `d` at that event
time. -/
theorem candidate_check_uses_snapshot (n : Nat) (conn : Nat → Nat → Bool)
    (delay : Nat → Nat → Nat) (o : Nat → Nat) (st : GState) :
    (∀ m ∈ (linkChunkMatchingG n conn delay o st).result,
      m ∈ st.result ∨ m.chunk ∈ st.pre m.src) ∧
    (∀ d c, c ∉ st.pre d →
      ∀ m ∈ (linkChunkMatchingG n conn delay o st).result,
        m ∉ st.result → ¬(m.src = d ∧ m.chunk = c)) := by
  constructor
  · intro m hm
    rcases matchLoopG_result n conn delay o st.pre (condSize st.post) st.post st m hm with
      h | ⟨-, -, h⟩
    · exact Or.inl h
    · exact Or.inr h
  · intro d c hc m hm hnot ⟨hsrc, hchunk⟩
    rcases matchLoopG_result n conn delay o st.pre (condSize st.post) st.post st m hm with
      h | ⟨-, -, h⟩
    · exact hnot h
    · rw [hsrc, hchunk] at h
      exact hc h

/-- C7 witness: on the ring at event time 5, the greedy matching records chunk
2 moving `2 → 0`; its source held it in the snapshot.  Chunk 0 is deposited at
NPU 1 during this very event, yet NPU 1 is never used as a source for chunk 0
in the event (NPU 2's request for chunk 0 finds no candidate), as the snapshot
semantics dictates. -/
theorem candidate_check_uses_snapshot_witness :
    ((⟨2, 2, 0, 5, 0⟩ : Match) ∈
      (linkChunkMatchingG 3 ringConn ringDelay (fun _ => 0) ringEventState).result) ∧
    ((⟨2, 2, 0, 5, 0⟩ : Match) ∈ ringEventState.result ∨
      (⟨2, 2, 0, 5, 0⟩ : Match).chunk ∈ ringEventState.pre (⟨2, 2, 0, 5, 0⟩ : Match).src) ∧
    (0 ∉ ringEventState.pre 1) ∧
    (∀ m ∈ (linkChunkMatchingG 3 ringConn ringDelay (fun _ => 0) ringEventState).result,
      m ∉ ringEventState.result → ¬(m.src = 1 ∧ m.chunk = 0)) :=
  ⟨by decide,
    (candidate_check_uses_snapshot 3 ringConn ringDelay (fun _ => 0) ringEventState).1
      ⟨2, 2, 0, 5, 0⟩ (by decide),
    by decide,
    (candidate_check_uses_snapshot 3 ringConn ringDelay (fun _ => 0) ringEventState).2
      1 0 (by decide)⟩

/-- The start-time bookkeeping is preserved by the greedy main loop. -/
theorem runG_result_start (n : Nat) (conn : Nat → Nat → Bool) (delay : Nat → Nat → Nat)
    (delays : List Nat) (o : Nat → Nat) :
    ∀ fuel st,
      (∀ m ∈ st.result, m.startTime = (m.time : Int) - (delay m.src m.dest : Int)) →
      ∀ m ∈ (runG n conn delay delays o fuel st).1.result,
        m.startTime = (m.time : Int) - (delay m.src m.dest : Int) := by
  intro fuel
  induction fuel with
  | zero => intro st h m hm; exact h m hm
  | succ fuel ih =>
    intro st h m hm
    rw [runG] at hm
    rcases hqu : st.queue with _ | ⟨t, rest⟩
    · rw [hqu] at hm
      exact h m hm
    · rw [hqu] at hm
      dsimp only at hm
      set st1 : GState :=
        { st with time := t, queue := rest, ten := st.ten.updateCurrentTime t } with hst1
      have hstep : ∀ m ∈ (linkChunkMatchingG n conn delay o st1).result,
          m.startTime = (m.time : Int) - (delay m.src m.dest : Int) := by
        intro m' hm'
        rcases matchLoopG_result n conn delay o st1.pre (condSize st1.post) st1.post st1
            m' hm' with hold | ⟨ht, hs, -⟩
        · exact h m' hold
        · rw [hs, ht]
      by_cases hdone : (linkChunkMatchingG n conn delay o st1).post.isEmpty
      · rw [if_pos hdone] at hm
        exact hstep m hm
      · rw [if_neg hdone] at hm
        exact ih (scheduleNextEventsG delays (linkChunkMatchingG n conn delay o st1))
          (fun m' hm' => hstep m' hm') m hm

/-- C2 (amended): every link-chunk match recorded by the greedy synthesizer at
event time `t` on link `(s,d)` has
`transmissionStartTime = t - linkDelay(s,d)` computed as a signed value; it is
non-negative exactly when `linkDelay(s,d) ≤ t`, and can be negative when the
link's delay exceeds the event time. -/
theorem transmission_start_time_amended (n : Nat) (conn : Nat → Nat → Bool)
    (delay : Nat → Nat → Nat) (o : Nat → Nat) (fuel : Nat) (pre : Nat → List Nat)
    (post : Cond) :
    ∀ m ∈ (synthesizeG n conn delay o fuel pre post).1.result,
      m.startTime = (m.time : Int) - (delay m.src m.dest : Int) ∧
      (0 ≤ m.startTime ↔ delay m.src m.dest ≤ m.time) := by
  intro m hm
  have h := runG_result_start n conn delay (distinctLinkDelays n conn delay) o fuel
    (initGState (distinctLinkDelays n conn delay) pre post) (by intro m' hm'; cases hm') m hm
  refine ⟨h, ?_⟩
  rw [h, sub_nonneg]
  exact_mod_cast Iff.rfl

/-- C2 counterexample: in the 2-NPU scenario with delays 10 ps (`0 → 1`) and
5 ps (`1 → 0`), the first event pops at time 5 and the greedy synthesizer
matches chunk 0 over the 10 ps link, recording
`transmissionStartTime = 5 - 10 = -5 < 0`: the claimed non-negativity fails. -/
theorem transmission_start_time_counterexample :
    (synthesizeG 2 c2Conn c2Delay (fun _ => 0) 3 c2Pre [(1, [0])]).1.result
      = [⟨0, 0, 1, 5, -5⟩] ∧
    (synthesizeG 2 c2Conn c2Delay (fun _ => 0) 3 c2Pre [(1, [0])]).2 = true ∧
    ((-5 : Int) < 0) :=
  ⟨by decide, by decide, by decide⟩

/-- C2 witness (for the amended claim): the match recorded in the 2-NPU
scenario satisfies the amended characterization, with
`startTime = 5 - 10 = -5` and `¬(10 ≤ 5)`. -/
theorem transmission_start_time_amended_witness :
    ((⟨0, 0, 1, 5, -5⟩ : Match) ∈
      (synthesizeG 2 c2Conn c2Delay (fun _ => 0) 3 c2Pre [(1, [0])]).1.result) ∧
    ((⟨0, 0, 1, 5, -5⟩ : Match).startTime =
        (((⟨0, 0, 1, 5, -5⟩ : Match).time : Nat) : Int) -
          ((c2Delay (⟨0, 0, 1, 5, -5⟩ : Match).src (⟨0, 0, 1, 5, -5⟩ : Match).dest : Nat) : Int) ∧
      (0 ≤ (⟨0, 0, 1, 5, -5⟩ : Match).startTime ↔
        c2Delay (⟨0, 0, 1, 5, -5⟩ : Match).src (⟨0, 0, 1, 5, -5⟩ : Match).dest ≤
          (⟨0, 0, 1, 5, -5⟩ : Match).time)) :=
  ⟨by decide,
    transmission_start_time_amended 2 c2Conn c2Delay (fun _ => 0) 3 c2Pre [(1, [0])]
      ⟨0, 0, 1, 5, -5⟩ (by decide)⟩

/-- Membership after inserting into the event queue. -/
theorem mem_scheduleEvent (t x : Nat) :
    ∀ l : List Nat, x ∈ scheduleEvent t l ↔ x = t ∨ x ∈ l := by
  intro l
  induction l with
  | nil => simp [scheduleEvent]
  | cons y ys ih =>
    rw [scheduleEvent]
    by_cases h1 : t < y
    · rw [if_pos h1]
      simp [List.mem_cons]
    · rw [if_neg h1]
      by_cases h2 : t = y
      · rw [if_pos h2]
        subst h2
        simp [List.mem_cons]
      · rw [if_neg h2]
        simp only [List.mem_cons, ih]
        tauto

/-- Inserting into a strictly sorted event queue keeps it strictly sorted. -/
theorem sorted_scheduleEvent (t : Nat) :
    ∀ l : List Nat, List.Sorted (· < ·) l → List.Sorted (· < ·) (scheduleEvent t l) := by
  intro l
  induction l with
  | nil =>
    intro _
    simp [scheduleEvent]
  | cons y ys ih =>
    intro hs
    rw [List.sorted_cons] at hs
    rw [scheduleEvent]
    by_cases h1 : t < y
    · rw [if_pos h1, List.sorted_cons]
      refine ⟨?_, List.sorted_cons.mpr hs⟩
      intro b hb
      rcases List.mem_cons.mp hb with rfl | hb'
      · exact h1
      · exact lt_trans h1 (hs.1 b hb')
    · rw [if_neg h1]
      by_cases h2 : t = y
      · rw [if_pos h2]
        exact List.sorted_cons.mpr hs
      · rw [if_neg h2]
        rw [List.sorted_cons]
        refine ⟨?_, ih hs.2⟩
        intro b hb
        rcases (mem_scheduleEvent t b ys).mp hb with rfl | hb'
        · omega
        · exact hs.1 b hb'

/-- Scheduling the next events keeps the queue strictly sorted. -/
theorem sorted_foldl_schedule (base : Nat) :
    ∀ (delays : List Nat) (qu : List Nat), List.Sorted (· < ·) qu →
      List.Sorted (· < ·)
        (delays.foldl (fun q dl => scheduleEvent (base + dl) q) qu) := by
  intro delays
  induction delays with
  | nil => intro qu h; exact h
  | cons dl rest ih =>
    intro qu h
    exact ih _ (sorted_scheduleEvent (base + dl) qu h)

/-- Every time in the queue after scheduling is either a fresh future event or
was already queued. -/
theorem mem_foldl_schedule (base : Nat) :
    ∀ (delays : List Nat) (qu : List Nat) (x : Nat),
      x ∈ delays.foldl (fun q dl => scheduleEvent (base + dl) q) qu →
      base ≤ x ∨ x ∈ qu := by
  intro delays
  induction delays with
  | nil => intro qu x h; exact Or.inr h
  | cons dl rest ih =>
    intro qu x h
    rcases ih _ x h with h' | h'
    · exact Or.inl h'
    · rcases (mem_scheduleEvent (base + dl) x qu).mp h' with rfl | h''
      · exact Or.inl (Nat.le_add_right base dl)
      · exact Or.inr h''

/-- Making one greedy match on an available link preserves the loop
invariant. -/
theorem markLinkChunkMatchG_inv (delay : Nat → Nat → Nat) (st : GState)
    (src dest chunk : Nat) (hinv : GInvariant delay st)
    (havail : st.ten.linkAvailable src dest = true) :
    GInvariant delay (markLinkChunkMatchG delay src dest chunk st) := by
  obtain ⟨h1, h2, h3, h4, h5, h6⟩ := hinv
  refine ⟨h1, h2, ?_, ?_, ?_, ?_⟩
  · intro m hm
    rcases List.mem_append.mp hm with hm' | hm'
    · exact h3 m hm'
    · rcases List.mem_singleton.mp hm' with rfl
      exact le_refl _
  · intro s d havail'
    show (if s = src ∧ d = dest then st.time + delay src dest
      else st.ten.busyUntil s d) ≤ st.time
    have hne : ¬(s = src ∧ d = dest) := by
      intro hp
      have : (if s = src ∧ d = dest then false else st.ten.linkAvailable s d) = true :=
        havail'
      rw [if_pos hp] at this
      exact Bool.false_ne_true this
    rw [if_neg hne]
    have : (if s = src ∧ d = dest then false else st.ten.linkAvailable s d) = true :=
      havail'
    rw [if_neg hne] at this
    exact h4 s d this
  · intro m hm
    show m.time + delay m.src m.dest ≤
      (if m.src = src ∧ m.dest = dest then st.time + delay src dest
        else st.ten.busyUntil m.src m.dest)
    rcases List.mem_append.mp hm with hm' | hm'
    · by_cases hp : m.src = src ∧ m.dest = dest
      · rw [if_pos hp, hp.1, hp.2]
        exact Nat.add_le_add_right (h3 m hm') _
      · rw [if_neg hp]
        exact h5 m hm'
    · rcases List.mem_singleton.mp hm' with rfl
      rw [if_pos ⟨rfl, rfl⟩]
  · refine List.pairwise_append.mpr ⟨h6, List.pairwise_singleton _ _, ?_⟩
    intro m1 hm1 m2 hm2
    rcases List.mem_singleton.mp hm2 with rfl
    intro hsrc hdest
    dsimp only at hsrc hdest
    have hb : st.ten.busyUntil src dest ≤ st.time := h4 src dest havail
    have hgoal := h5 m1 hm1
    rw [hsrc, hdest]
    rw [hsrc, hdest] at hgoal
    exact le_trans hgoal hb

/-- The greedy matching loop preserves the loop invariant (matches are made
only on links whose availability the TEN asserts). -/
theorem matchLoopG_inv (n : Nat) (conn : Nat → Nat → Bool) (delay : Nat → Nat → Nat)
    (o : Nat → Nat) (P0 : Nat → List Nat) :
    ∀ fuel q st, GInvariant delay st →
      GInvariant delay (matchLoopG n conn delay o P0 fuel q st) := by
  intro fuel
  induction fuel with
  | zero => intro q st h; exact h
  | succ fuel ih =>
    intro q st h
    rw [matchLoopG]
    by_cases hq : q.isEmpty
    · rw [if_pos hq]
      exact h
    · rw [if_neg hq]
      rcases hsel : selectPostcondition o st.ctr q with ⟨dest, chunk, q', ctr'⟩
      dsimp only
      have hctr : GInvariant delay ({ st with ctr := ctr' } : GState) := h
      by_cases hc : (checkCandidateSourceNpus chunk P0
          (TEN.backtrackTEN n conn st.ten dest)).isEmpty
      · rw [if_pos hc]
        exact ih q' _ hctr
      · rw [if_neg hc]
        refine ih q' _ (markLinkChunkMatchG_inv delay _ _ _ _ hctr ?_)
        have hcand : selectSourceNpu delay
            (checkCandidateSourceNpus chunk P0 (TEN.backtrackTEN n conn st.ten dest))
            dest ∈ checkCandidateSourceNpus chunk P0
              (TEN.backtrackTEN n conn st.ten dest) :=
          selectSourceNpu_mem _ _ _ (by
            intro hh
            rw [hh] at hc
            exact hc rfl)
        have hsrcs : selectSourceNpu delay
            (checkCandidateSourceNpus chunk P0 (TEN.backtrackTEN n conn st.ten dest))
            dest ∈ TEN.backtrackTEN n conn st.ten dest :=
          List.mem_of_mem_filter hcand
        have := List.of_mem_filter hsrcs
        exact (Bool.and_eq_true _ _ |>.mp this).2

/-- Scheduling the next events preserves the loop invariant. -/
theorem scheduleNextEventsG_inv (delay : Nat → Nat → Nat) (delays : List Nat)
    (st : GState) (hinv : GInvariant delay st) :
    GInvariant delay (scheduleNextEventsG delays st) := by
  obtain ⟨h1, h2, h3, h4, h5, h6⟩ := hinv
  refine ⟨?_, ?_, h3, h4, h5, h6⟩
  · exact sorted_foldl_schedule st.time delays st.queue h1
  · intro t ht
    rcases mem_foldl_schedule st.time delays st.queue t ht with h' | h'
    · exact h'
    · exact h2 t h'

/-- The greedy main loop preserves the loop invariant. -/
theorem runG_inv (n : Nat) (conn : Nat → Nat → Bool) (delay : Nat → Nat → Nat)
    (delays : List Nat) (o : Nat → Nat) :
    ∀ fuel st, GInvariant delay st →
      GInvariant delay (runG n conn delay delays o fuel st).1 := by
  intro fuel
  induction fuel with
  | zero => intro st h; exact h
  | succ fuel ih =>
    intro st h
    rw [runG]
    rcases hqu : st.queue with _ | ⟨t, rest⟩
    · exact h
    · dsimp only
      set st1 : GState :=
        { st with time := t, queue := rest, ten := st.ten.updateCurrentTime t } with hst1def
      obtain ⟨h1, h2, h3, h4, h5, h6⟩ := h
      rw [hqu] at h1 h2
      have htime : st.time ≤ t := h2 t (List.mem_cons_self t rest)
      have hst1 : GInvariant delay st1 := by
        refine ⟨(List.sorted_cons.mp h1).2, ?_, ?_, ?_, ?_, h6⟩
        · intro x hx
          exact le_of_lt ((List.sorted_cons.mp h1).1 x hx)
        · intro m hm
          exact le_trans (h3 m hm) htime
        · intro s d ha
          exact of_decide_eq_true ha
        · intro m hm
          exact h5 m hm
      have hst2 := matchLoopG_inv n conn delay o st1.pre (condSize st1.post) st1.post st1 hst1
      by_cases hdone : (linkChunkMatchingG n conn delay o st1).post.isEmpty
      · rw [if_pos hdone]
        exact hst2
      · rw [if_neg hdone]
        exact ih _ (scheduleNextEventsG_inv delay delays _ hst2)

/-- The invariant holds in the greedy synthesizer's constructed initial
state. -/
theorem initGState_inv (delay : Nat → Nat → Nat) (delays : List Nat)
    (pre : Nat → List Nat) (post : Cond) :
    GInvariant delay (initGState delays pre post) := by
  apply scheduleNextEventsG_inv
  refine ⟨List.sorted_nil, ?_, ?_, ?_, ?_, List.Pairwise.nil⟩
  · intro t ht
    cases ht
  · intro m hm
    cases hm
  · intro s d ha
    exact absurd ha (by simp)
  · intro m hm
    cases hm

/-- C3: any two matches recorded by the greedy synthesizer on the same
directed link `(s,d)` at event times `t1 < t2` satisfy
`t2 ≥ t1 + linkDelay(s,d)`: the second match waits for the busy-until stamp
set by the first, so transmissions on one link never overlap. -/
theorem no_link_overlap (n : Nat) (conn : Nat → Nat → Bool) (delay : Nat → Nat → Nat)
    (o : Nat → Nat) (fuel : Nat) (pre : Nat → List Nat) (post : Cond)
    (m1 m2 : Match)
    (hm1 : m1 ∈ (synthesizeG n conn delay o fuel pre post).1.result)
    (hm2 : m2 ∈ (synthesizeG n conn delay o fuel pre post).1.result)
    (hsrc : m1.src = m2.src) (hdest : m1.dest = m2.dest)
    (hlt : m1.time < m2.time) :
    m1.time + delay m1.src m1.dest ≤ m2.time := by
  have h6 : (synthesizeG n conn delay o fuel pre post).1.result.Pairwise
      (fun m1 m2 => m1.src = m2.src → m1.dest = m2.dest →
        m1.time + delay m1.src m1.dest ≤ m2.time) :=
    (runG_inv n conn delay (distinctLinkDelays n conn delay) o fuel
      (initGState (distinctLinkDelays n conn delay) pre post)
      (initGState_inv delay (distinctLinkDelays n conn delay) pre post)).2.2.2.2.2
  rw [List.pairwise_iff_get] at h6
  obtain ⟨i, hi⟩ := List.mem_iff_get.mp hm1
  obtain ⟨j, hj⟩ := List.mem_iff_get.mp hm2
  rcases lt_trichotomy i j with hij | hij | hij
  · have := h6 i j hij
    rw [hi, hj] at this
    exact this hsrc hdest
  · rw [hij, hj] at hi
    rw [hi] at hlt
    exact absurd hlt (lt_irrefl _)
  · have := h6 j i hij
    rw [hi, hj] at this
    have hcontra := this hsrc.symm hdest.symm
    omega

/-- C3 witness: in the greedy run on the 3-NPU ring, link `2 → 0` carries
chunk 2 at event time 5 and chunk 1 at event time 10, and `10 ≥ 5 + 5`. -/
theorem no_link_overlap_witness :
    ((⟨2, 2, 0, 5, 0⟩ : Match) ∈
      (synthesizeG 3 ringConn ringDelay (fun _ => 0) 5 ringPre ringPost).1.result) ∧
    ((⟨1, 2, 0, 10, 5⟩ : Match) ∈
      (synthesizeG 3 ringConn ringDelay (fun _ => 0) 5 ringPre ringPost).1.result) ∧
    (⟨2, 2, 0, 5, 0⟩ : Match).time + ringDelay 2 0 ≤ (⟨1, 2, 0, 10, 5⟩ : Match).time :=
  ⟨by decide, by decide,
    no_link_overlap 3 ringConn ringDelay (fun _ => 0) 5 ringPre ringPost
      ⟨2, 2, 0, 5, 0⟩ ⟨1, 2, 0, 10, 5⟩ (by decide) (by decide) rfl rfl (by decide)⟩

/-- `min_element` returns one of the elements. -/
theorem minElemBy_mem : ∀ (bs : List BState) (best : BState), minElemBy best bs ∈ best :: bs := by
  intro bs
  induction bs with
  | nil => intro best; exact List.mem_singleton.mpr rfl
  | cons b rest ih =>
    intro best
    rw [minElemBy]
    by_cases hlt : b.collectiveTime < best.collectiveTime
    · rw [if_pos hlt]
      rcases List.mem_cons.mp (ih b) with h | h
      · rw [h]
        exact List.mem_cons_of_mem best (List.mem_cons_self b rest)
      · exact List.mem_cons_of_mem best (List.mem_cons_of_mem b h)
    · rw [if_neg hlt]
      rcases List.mem_cons.mp (ih best) with h | h
      · rw [h]
        exact List.mem_cons_self best (b :: rest)
      · exact List.mem_cons_of_mem best (List.mem_cons_of_mem b h)

/-- `min_element` returns an element of minimal collective time. -/
theorem minElemBy_le : ∀ (bs : List BState) (best : BState), ∀ r ∈ best :: bs,
    (minElemBy best bs).collectiveTime ≤ r.collectiveTime := by
  intro bs
  induction bs with
  | nil =>
    intro best r hr
    rcases List.mem_singleton.mp hr with rfl
    exact le_refl _
  | cons b rest ih =>
    intro best r hr
    rw [minElemBy]
    have hbest' : (if b.collectiveTime < best.collectiveTime then b else best).collectiveTime
        ≤ best.collectiveTime ∧
        (if b.collectiveTime < best.collectiveTime then b else best).collectiveTime
        ≤ b.collectiveTime := by
      by_cases hlt : b.collectiveTime < best.collectiveTime
      · rw [if_pos hlt]
        exact ⟨le_of_lt hlt, le_refl _⟩
      · rw [if_neg hlt]
        exact ⟨le_refl _, le_of_not_lt hlt⟩
    rcases List.mem_cons.mp hr with rfl | hr'
    · exact le_trans
        (ih _ _ (List.mem_cons_self _ rest)) hbest'.1
    · rcases List.mem_cons.mp hr' with rfl | hr''
      · exact le_trans (ih _ _ (List.mem_cons_self _ rest)) hbest'.2
      · exact ih _ r (List.mem_cons_of_mem _ hr'')

/-- C6: when `BeamSynthesizer::synthesize` completes, the returned result is
one of the `K` per-beam results and its collective time is minimal among them:
no other beam's result has a smaller collective time. -/
theorem beam_returns_min (n : Nat) (conn : Nat → Nat → Bool) (delay : Nat → Nat → Nat)
    (o : Nat → Nat) (K fuel : Nat) (pre : Nat → List Nat) (post : Cond)
    (res : BState) (bs : List BState) (T : Nat)
    (h : beamSynthesize n conn delay o K fuel pre post = some (res, bs, T)) :
    res ∈ bs ∧ ∀ r ∈ bs, res.collectiveTime ≤ r.collectiveTime := by
  rw [beamSynthesize] at h
  rcases hrun : runB n conn o (distinctLinkDelays n conn delay) fuel
      (List.replicate K ⟨pre, post, ⟨fun _ _ => 0, fun _ _ => false⟩, 0, []⟩) 0
      ((distinctLinkDelays n conn delay).foldl (fun qu dl => scheduleEvent (0 + dl) qu) []) 0
    with _ | ⟨bs2, T2⟩
  · rw [hrun] at h
    cases h
  · rw [hrun] at h
    rcases bs2 with _ | ⟨b, rest⟩
    · cases h
    · dsimp only at h
      injection h with h1
      injection h1 with hres h2
      injection h2 with hbs hT
      subst hres hbs
      exact ⟨minElemBy_mem rest b, minElemBy_le rest b⟩

/-- C6 witness: the 2-beam ring run completes; the returned result is among
the two beam results and its collective time (10 ps) is minimal. -/
theorem beam_returns_min_witness :
    beamSynthesize 3 ringConn ringDelay (fun _ => 0) 2 6 ringPre ringPost
      = some (c6run.1, c6run.2.1, c6run.2.2) ∧
    c6run.1 ∈ c6run.2.1 ∧
    (∀ r ∈ c6run.2.1, c6run.1.collectiveTime ≤ r.collectiveTime) ∧
    c6run.1.collectiveTime = 10 ∧ c6run.2.1.length = 2 :=
  ⟨rfl,
    (beam_returns_min 3 ringConn ringDelay (fun _ => 0) 2 6 ringPre ringPost
      c6run.1 c6run.2.1 c6run.2.2 rfl).1,
    (beam_returns_min 3 ringConn ringDelay (fun _ => 0) 2 6 ringPre ringPost
      c6run.1 c6run.2.1 c6run.2.2 rfl).2,
    rfl, rfl⟩

/-- Two booleans agreeing as propositions are equal. -/
theorem bool_eq_of_iff {a b : Bool} (h : a = true ↔ b = true) : a = b := by
  cases a <;> cases b <;> simp_all

/-- `condMem` on a cons cell. -/
theorem condMem_cons (e : Nat × List Nat) (q : Cond) (d c : Nat) :
    condMem (e :: q) d c = ((decide (e.1 = d) && decide (c ∈ e.2)) || condMem q d c) :=
  List.any_cons

/-- No entry contributes to `condMem` at an absent key. -/
theorem condMem_eq_false_of_key_not_mem {q : Cond} {d : Nat}
    (h : d ∉ q.map Prod.fst) (c : Nat) : condMem q d c = false := by
  induction q with
  | nil => rfl
  | cons e t ih =>
    rw [condMem_cons]
    rw [List.map_cons, List.mem_cons] at h
    push_neg at h
    have h1 : decide (e.1 = d) = false := by
      simp only [decide_eq_false_iff_not]
      exact fun hh => h.1 hh.symm
    rw [h1, ih h.2]
    rfl

/-- An entry's chunks are members of the condition. -/
theorem condMem_of_mem {q : Cond} {e : Nat × List Nat} (he : e ∈ q) {c : Nat}
    (hc : c ∈ e.2) : condMem q e.1 c = true := by
  unfold condMem
  rw [List.any_eq_true]
  exact ⟨e, he, by simp [hc]⟩

/-- With distinct keys, lookup finds exactly the member entry. -/
theorem condLookup_of_mem_wf {q : Cond} (hwf : (q.map Prod.fst).Nodup)
    {e : Nat × List Nat} (he : e ∈ q) : condLookup q e.1 = e.2 := by
  induction q with
  | nil => cases he
  | cons e0 t ih =>
    rw [condLookup_cons]
    rw [List.map_cons, List.nodup_cons] at hwf
    rcases List.mem_cons.mp he with rfl | he'
    · rw [if_pos rfl]
    · by_cases h0 : e0.1 = e.1
      · exfalso
        apply hwf.1
        rw [h0]
        exact List.mem_map_of_mem Prod.fst he'
      · rw [if_neg h0]
        exact ih hwf.2 he'

/-- `condSize` of a cons cell. -/
theorem condSize_cons (e : Nat × List Nat) (q : Cond) :
    condSize (e :: q) = e.2.length + 1 + condSize q := by
  unfold condSize
  rw [List.map_cons, List.sum_cons]

/-- An empty-measure condition is empty. -/
theorem condSize_eq_zero {q : Cond} (h : condSize q = 0) : q = [] := by
  cases q with
  | nil => rfl
  | cons e t =>
    rw [condSize_cons] at h
    omega

/-- Defaulted indexing stays inside the list. -/
theorem getD_mem {α : Type} : ∀ {cs : List α} {j : Nat} {d : α}, j < cs.length →
    cs.getD j d ∈ cs := by
  intro cs
  induction cs with
  | nil => intro j d hj; simp at hj
  | cons x t ih =>
    intro j d hj
    cases j with
    | zero =>
      rw [List.getD_cons_zero]
      exact List.mem_cons_self x t
    | succ j =>
      rw [List.getD_cons_succ]
      exact List.mem_cons_of_mem x (ih (by simpa using hj))

/-- Removing the entry at a valid index removes its measure contribution. -/
theorem condSize_eraseIdx : ∀ (q : Cond) (i : Nat), i < q.length →
    condSize (q.eraseIdx i) + (q.getD i (0, [])).2.length + 1 = condSize q := by
  intro q
  induction q with
  | nil => intro i hi; simp at hi
  | cons e t ih =>
    intro i hi
    cases i with
    | zero =>
      rw [List.eraseIdx_cons_zero, List.getD_cons_zero, condSize_cons]
      omega
    | succ i =>
      rw [List.eraseIdx_cons_succ, List.getD_cons_succ, condSize_cons, condSize_cons]
      have := ih i (by simpa using hi)
      omega

/-- Replacing the entry at a valid index swaps its measure contribution. -/
theorem condSize_set : ∀ (q : Cond) (i : Nat) (e' : Nat × List Nat), i < q.length →
    condSize (q.set i e') + (q.getD i (0, [])).2.length
      = condSize q + e'.2.length := by
  intro q
  induction q with
  | nil => intro i e' hi; simp at hi
  | cons e t ih =>
    intro i e' hi
    cases i with
    | zero =>
      rw [List.set_cons_zero, List.getD_cons_zero, condSize_cons, condSize_cons]
      omega
    | succ i =>
      rw [List.set_cons_succ, List.getD_cons_succ, condSize_cons, condSize_cons]
      have := ih i e' (by simpa using hi)
      omega

/-- Membership in a duplicate-free list after removing the element at index
`j`. -/
theorem mem_eraseIdx_nodup : ∀ (cs : List Nat) (j : Nat), cs.Nodup → j < cs.length →
    ∀ c, c ∈ cs.eraseIdx j ↔ (c ∈ cs ∧ c ≠ cs.getD j 0) := by
  intro cs
  induction cs with
  | nil => intro j _ hj; simp at hj
  | cons x t ih =>
    intro j hnd hj c
    rw [List.nodup_cons] at hnd
    cases j with
    | zero =>
      rw [List.eraseIdx_cons_zero, List.getD_cons_zero]
      constructor
      · intro hc
        exact ⟨List.mem_cons_of_mem x hc, fun hcx => hnd.1 (hcx ▸ hc)⟩
      · rintro ⟨hc, hne⟩
        rcases List.mem_cons.mp hc with rfl | hc'
        · exact absurd rfl hne
        · exact hc'
    | succ j =>
      rw [List.eraseIdx_cons_succ, List.getD_cons_succ]
      have hj' : j < t.length := by simpa using hj
      constructor
      · intro hc
        rcases List.mem_cons.mp hc with rfl | hc'
        · refine ⟨List.mem_cons_self _ _, ?_⟩
          intro hcontra
          have hmem : t.getD j 0 ∈ t := getD_mem hj'
          rw [← hcontra] at hmem
          exact hnd.1 hmem
        · have h2 := (ih j hnd.2 hj' c).mp hc'
          exact ⟨List.mem_cons_of_mem _ h2.1, h2.2⟩
      · rintro ⟨hc, hne⟩
        rcases List.mem_cons.mp hc with rfl | hc'
        · exact List.mem_cons_self _ _
        · exact List.mem_cons_of_mem _ ((ih j hnd.2 hj' c).mpr ⟨hc', hne⟩)

/-- Replacing an entry by one with the same key keeps the key sequence. -/
theorem map_fst_set_key : ∀ (q : Cond) (i : Nat) (e' : Nat × List Nat), i < q.length →
    (q.getD i (0, [])).1 = e'.1 → (q.set i e').map Prod.fst = q.map Prod.fst := by
  intro q
  induction q with
  | nil => intro i e' hi; simp at hi
  | cons e t ih =>
    intro i e' hi hkey
    cases i with
    | zero =>
      rw [List.getD_cons_zero] at hkey
      rw [List.set_cons_zero, List.map_cons, List.map_cons, hkey]
    | succ i =>
      rw [List.getD_cons_succ] at hkey
      rw [List.set_cons_succ, List.map_cons, List.map_cons,
        ih i e' (by simpa using hi) hkey]

/-- The pair membership of a condition after removing a whole entry at a valid
index (distinct keys). -/
theorem condMem_eraseIdx : ∀ (q : Cond) (i : Nat), i < q.length →
    (q.map Prod.fst).Nodup → ∀ d c,
    condMem (q.eraseIdx i) d c =
      (condMem q d c &&
        !(decide (d = (q.getD i (0, [])).1) && decide (c ∈ (q.getD i (0, [])).2))) := by
  intro q
  induction q with
  | nil => intro i hi; simp at hi
  | cons e t ih =>
    intro i hi hnd d c
    rw [List.map_cons, List.nodup_cons] at hnd
    cases i with
    | zero =>
      rw [List.eraseIdx_cons_zero, List.getD_cons_zero, condMem_cons]
      by_cases hd : e.1 = d
      · subst hd
        have h0 : condMem t e.1 c = false :=
          condMem_eq_false_of_key_not_mem hnd.1 c
        rw [h0]
        by_cases hc : c ∈ e.2 <;> simp [hc]
      · have hd' : ¬ d = e.1 := fun h => hd h.symm
        simp [hd, hd']
    | succ i =>
      have hi' : i < t.length := by simpa using hi
      rw [List.eraseIdx_cons_succ, List.getD_cons_succ, condMem_cons, condMem_cons,
        ih i hi' hnd.2 d c]
      by_cases hd : e.1 = d
      · subst hd
        by_cases hc : c ∈ e.2
        · have hkey : (t.getD i (0, [])).1 ∈ t.map Prod.fst :=
            List.mem_map_of_mem Prod.fst (getD_mem hi')
          have hne : ¬ e.1 = (t.getD i (0, [])).1 := by
            intro h
            rw [h] at hnd
            exact hnd.1 hkey
          rw [List.getD_eq_getElem?_getD] at hne
          simp [hc, hne]
        · simp [hc]
      · simp [hd]

/-- The pair membership of a condition after replacing the entry at a valid
index by one with the same key (distinct keys). -/
theorem condMem_set : ∀ (q : Cond) (i : Nat) (e' : Nat × List Nat), i < q.length →
    (q.map Prod.fst).Nodup → (q.getD i (0, [])).1 = e'.1 → ∀ d c,
    condMem (q.set i e') d c =
      (if d = e'.1 then decide (c ∈ e'.2) else condMem q d c) := by
  intro q
  induction q with
  | nil => intro i e' hi; simp at hi
  | cons e t ih =>
    intro i e' hi hnd hkey d c
    rw [List.map_cons, List.nodup_cons] at hnd
    cases i with
    | zero =>
      rw [List.getD_cons_zero] at hkey
      rw [List.set_cons_zero, condMem_cons, condMem_cons]
      by_cases hd : d = e'.1
      · subst hd
        have h0 : condMem t (e'.1) c = false := by
          apply condMem_eq_false_of_key_not_mem _ c
          rw [← hkey]
          exact hnd.1
        rw [h0]
        have h1 : condMem t (e'.1) c = false := h0
        simp [h0]
      · have h2 : ¬ e'.1 = d := fun h => hd h.symm
        have h3 : ¬ e.1 = d := by
          rw [hkey]
          exact h2
        simp [h2, h3, hd]
    | succ i =>
      have hi' : i < t.length := by simpa using hi
      rw [List.getD_cons_succ] at hkey
      rw [List.set_cons_succ, condMem_cons, condMem_cons, ih i e' hi' hnd.2 hkey d c]
      by_cases hd : d = e'.1
      · subst hd
        have hkeymem : (t.getD i (0, [])).1 ∈ t.map Prod.fst :=
          List.mem_map_of_mem Prod.fst (getD_mem hi')
        have hne : ¬ e.1 = e'.1 := by
          intro h
          apply hnd.1
          rw [h, ← hkey]
          exact hkeymem
        simp [hne]
      · simp [hd]

/-- With distinct keys, pair membership coincides with chunk membership in the
looked-up entry. -/
theorem condMem_iff_lookup {q : Cond} (hkeys : (q.map Prod.fst).Nodup) (d c : Nat) :
    condMem q d c = true ↔ c ∈ condLookup q d := by
  constructor
  · intro h
    unfold condMem at h
    rw [List.any_eq_true] at h
    obtain ⟨e, he, hp⟩ := h
    rw [Bool.and_eq_true, decide_eq_true_eq, decide_eq_true_eq] at hp
    rw [← hp.1, condLookup_of_mem_wf hkeys he]
    exact hp.2
  · intro h
    unfold condLookup at h
    rcases hf : q.find? (fun e => decide (e.1 = d)) with _ | e
    · rw [hf] at h
      cases h
    · rw [hf] at h
      have he : e ∈ q := List.mem_of_find?_eq_some hf
      have hd : e.1 = d := by
        have := List.find?_some hf
        rwa [decide_eq_true_eq] at this
      rw [← hd]
      exact condMem_of_mem he h

/-- The full characterization of `selectPostcondition` on a non-empty
well-formed working copy: the measure strictly decreases, well-formedness is
kept, the selected pair was present, and exactly that pair is removed. -/
theorem selectPostcondition_spec (o : Nat → Nat) (ctr : Nat) (q : Cond)
    (hq : q ≠ []) (hwf : WfCond q) (dest chunk : Nat) (q' : Cond) (ctr' : Nat)
    (hsel : selectPostcondition o ctr q = (dest, chunk, q', ctr')) :
    condSize q' < condSize q ∧ WfCond q' ∧ condMem q dest chunk = true ∧
    ∀ d c, condMem q' d c =
      (condMem q d c && !(decide (d = dest) && decide (c = chunk))) := by
  obtain ⟨hkeys, hents⟩ := hwf
  have hlen : 0 < q.length := List.length_pos.mpr hq
  rw [selectPostcondition] at hsel
  set i := o ctr % q.length with hidef
  have hi : i < q.length := Nat.mod_lt _ hlen
  set e := q.getD i (0, []) with hedef
  have he : e ∈ q := getD_mem hi
  have hene : e.2 ≠ [] := (hents e he).1
  have hend : e.2.Nodup := (hents e he).2
  have hkey0 : (q.getD i (0, [])).1 = e.1 := by rw [← hedef]
  rcases hcs : e.2 with _ | ⟨c0, cs0⟩
  · exact absurd hcs hene
  · rw [hcs] at hsel
    dsimp only at hsel
    set j := o (ctr + 1) % (c0 :: cs0).length with hjdef
    have hj : j < (c0 :: cs0).length := Nat.mod_lt _ (by simp)
    have hchunkmem : (c0 :: cs0).getD j 0 ∈ e.2 := by
      rw [hcs]
      exact getD_mem hj
    by_cases hemp : ((c0 :: cs0).eraseIdx j).isEmpty
    · rw [if_pos hemp] at hsel
      injection hsel with h1 hrest
      injection hrest with h2 hrest2
      injection hrest2 with h3 h4
      subst h1 h2 h3
      have hcs0 : cs0 = [] := by
        have hlen1 : ((c0 :: cs0).eraseIdx j).length = 0 := by
          rw [List.isEmpty_iff] at hemp
          rw [hemp]
          rfl
        rw [List.length_eraseIdx] at hlen1
        rw [if_pos hj] at hlen1
        simp at hlen1
        exact hlen1
      subst hcs0
      have hj0 : j = 0 := by
        rw [hjdef]
        simp [Nat.mod_one]
      rw [hj0]
      simp only [List.getD_cons_zero]
      refine ⟨?_, ?_, ?_, ?_⟩
      · have hsz := condSize_eraseIdx q i hi
        rw [← hedef, hcs] at hsz
        simp only [List.length_cons, List.length_nil] at hsz
        omega
      · refine ⟨((List.eraseIdx_sublist q i).map Prod.fst).nodup hkeys, ?_⟩
        intro e' he'
        exact hents e' ((List.eraseIdx_sublist q i).subset he')
      · exact condMem_of_mem he (by rw [hcs]; exact List.mem_cons_self _ _)
      · intro d c
        rw [condMem_eraseIdx q i hi hkeys d c, ← hedef, hcs]
        have hmemiff : (decide (c ∈ ([c0] : List Nat))) = decide (c = c0) := by
          simp
        rw [hmemiff]
    · rw [if_neg hemp] at hsel
      injection hsel with h1 hrest
      injection hrest with h2 hrest2
      injection hrest2 with h3 h4
      subst h1 h2 h3
      have hlener : ((c0 :: cs0).eraseIdx j).length + 1 = (c0 :: cs0).length := by
        rw [List.length_eraseIdx, if_pos hj]
        simp
      refine ⟨?_, ?_, ?_, ?_⟩
      · have hsz := condSize_set q i (e.1, (c0 :: cs0).eraseIdx j) hi
        rw [← hedef, hcs] at hsz
        dsimp only at hsz
        simp only [List.length_cons] at hsz hlener
        omega
      · constructor
        · rw [map_fst_set_key q i (e.1, (c0 :: cs0).eraseIdx j) hi hkey0]
          exact hkeys
        · intro e' he'
          rcases List.mem_or_eq_of_mem_set he' with h | h
          · exact hents e' h
          · rw [h]
            refine ⟨?_, ?_⟩
            · intro hnil
              dsimp only at hnil
              rw [hnil] at hemp
              exact hemp rfl
            · exact (List.eraseIdx_sublist _ j).nodup (hcs ▸ hend)
      · exact condMem_of_mem he hchunkmem
      · intro d c
        rw [condMem_set q i (e.1, (c0 :: cs0).eraseIdx j) hi hkeys hkey0 d c]
        by_cases hd : d = e.1
        · rw [if_pos hd]
          apply bool_eq_of_iff
          rw [decide_eq_true_eq, Bool.and_eq_true, Bool.not_eq_true',
            Bool.and_eq_false_iff]
          rw [mem_eraseIdx_nodup (c0 :: cs0) j (hcs ▸ hend) hj c]
          rw [condMem_iff_lookup hkeys, hd, condLookup_of_mem_wf hkeys he, hcs]
          constructor
          · rintro ⟨hc, hne⟩
            refine ⟨hc, Or.inr ?_⟩
            rw [decide_eq_false_iff_not]
            exact hne
          · rintro ⟨hc, hor⟩
            refine ⟨hc, ?_⟩
            rcases hor with h | h
            · rw [decide_eq_false_iff_not] at h
              exact absurd rfl h
            · rw [decide_eq_false_iff_not] at h
              exact h
        · rw [if_neg hd]
          have hdd : decide (d = e.1) = false := by
            rw [decide_eq_false_iff_not]
            exact hd
          rw [hdd]
          simp

/-- Filtering before `filterMap` fuses into the mapping function. -/
theorem filterMap_filter_fuse {α β : Type} (p : α → Bool) (f : α → Option β) :
    ∀ l : List α, (l.filter p).filterMap f
      = l.filterMap (fun a => if p a then f a else none) := by
  intro l
  induction l with
  | nil => rfl
  | cons a t ih =>
    by_cases h : p a
    · rw [List.filter_cons_of_pos h, List.filterMap_cons, List.filterMap_cons, if_pos h]
      cases f a
      · exact ih
      · rw [ih]
    · rw [List.filter_cons_of_neg h, List.filterMap_cons, if_neg h, ih]

/-- The looked-up chunk set of a well-formed condition is duplicate-free. -/
theorem condLookup_nodup {q : Cond} (hwf : WfCond q) (d : Nat) :
    (condLookup q d).Nodup := by
  unfold condLookup
  rcases hf : q.find? (fun e => decide (e.1 = d)) with _ | e
  · rw [hf]
    exact List.nodup_nil
  · rw [hf]
    exact (hwf.2 e (List.mem_of_find?_eq_some hf)).2

/-- Erasing a chunk preserves condition well-formedness. -/
theorem condErase_wf {q : Cond} (hwf : WfCond q) (d c : Nat) :
    WfCond (condErase q d c) := by
  have hlnd := condLookup_nodup hwf d
  obtain ⟨hkeys, hents⟩ := hwf
  unfold condErase
  by_cases hemp : ((condLookup q d).erase c).isEmpty
  · rw [if_pos hemp]
    refine ⟨((List.filter_sublist _).map Prod.fst).nodup hkeys, ?_⟩
    intro e he
    exact hents e ((List.filter_sublist _).subset he)
  · rw [if_neg hemp]
    constructor
    · have hmap : (q.map (fun e => if e.1 = d then (d, (condLookup q d).erase c) else e)).map
          Prod.fst = q.map Prod.fst := by
        rw [List.map_map]
        apply List.map_congr_left
        intro e he
        by_cases h : e.1 = d
        · simp [h]
        · simp [h]
      rw [hmap]
      exact hkeys
    · intro e' he'
      obtain ⟨e, he, heq⟩ := List.mem_map.mp he'
      by_cases h : e.1 = d
      · rw [if_pos h] at heq
        rw [← heq]
        refine ⟨?_, ?_⟩
        · intro hnil
          dsimp only at hnil
          rw [hnil] at hemp
          exact hemp rfl
        · exact List.Nodup.erase c hlnd
      · rw [if_neg h] at heq
        rw [← heq]
        exact hents e he

/-- `finalPost` depends only on the kept/removed verdict of each present
pair. -/
theorem finalPost_congr {q1 q2 : Cond} {pr1 pr2 : Nat → Nat → Bool} {post : Cond}
    (h : ∀ e ∈ post, ∀ c ∈ e.2,
      (condMem q1 e.1 c && pr1 e.1 c) = (condMem q2 e.1 c && pr2 e.1 c)) :
    finalPost q1 pr1 post = finalPost q2 pr2 post := by
  unfold finalPost
  apply List.filterMap_congr
  intro e he
  have hfil : e.2.filter (fun c => !(condMem q1 e.1 c && pr1 e.1 c))
      = e.2.filter (fun c => !(condMem q2 e.1 c && pr2 e.1 c)) := by
    apply List.filter_congr
    intro c hc
    rw [h e he c hc]
  dsimp only
  rw [hfil]

/-- With an exhausted working copy, the event changes nothing. -/
theorem finalPost_nilq {pr : Nat → Nat → Bool} : ∀ {post : Cond}, WfCond post →
    finalPost [] pr post = post := by
  intro post
  induction post with
  | nil => intro _; rfl
  | cons e t ih =>
    intro hwf
    unfold finalPost
    rw [List.filterMap_cons]
    dsimp only
    have hfil : e.2.filter (fun c => !(condMem [] e.1 c && pr e.1 c)) = e.2 := by
      rw [List.filter_eq_self]
      intro c hc
      rfl
    rw [hfil]
    have hne : e.2.isEmpty = false := by
      rw [List.isEmpty_eq_false]
      exact (hwf.2 e (List.mem_cons_self e t)).1
    rw [hne]
    have htail : WfCond t := by
      obtain ⟨hk, hent⟩ := hwf
      rw [List.map_cons, List.nodup_cons] at hk
      exact ⟨hk.2, fun e' he' => hent e' (List.mem_cons_of_mem e he')⟩
    have := ih htail
    unfold finalPost at this
    rw [this]
    rfl

/-- Removing a pair whose candidate check failed does not change the event's
final postcondition. -/
theorem finalPost_unmatch {q q' : Cond} {pr : Nat → Nat → Bool} {post : Cond}
    {dest chunk : Nat} (hpr : pr dest chunk = false)
    (hq' : ∀ d c, condMem q' d c =
      (condMem q d c && !(decide (d = dest) && decide (c = chunk)))) :
    finalPost q pr post = finalPost q' pr post := by
  apply finalPost_congr
  intro e he c hc
  rw [hq' e.1 c]
  by_cases hd : e.1 = dest
  · by_cases hcc : c = chunk
    · rw [hd, hcc, hpr]
      simp
    · have h2 : decide (c = chunk) = false := by
        rw [decide_eq_false_iff_not]
        exact hcc
      rw [h2]
      simp
  · have h1 : decide (e.1 = dest) = false := by
      rw [decide_eq_false_iff_not]
      exact hd
    rw [h1]
    simp

/-- Removing a matched pair from the working copy while erasing it from the
live postcondition leaves the event's final postcondition unchanged. -/
theorem finalPost_match {q q' : Cond} {pr : Nat → Nat → Bool} {post : Cond}
    {dest chunk : Nat} (hwf : WfCond post)
    (hmem : condMem q dest chunk = true) (hpr : pr dest chunk = true)
    (hq' : ∀ d c, condMem q' d c =
      (condMem q d c && !(decide (d = dest) && decide (c = chunk)))) :
    finalPost q pr post = finalPost q' pr (condErase post dest chunk) := by
  have hlnd := condLookup_nodup hwf dest
  obtain ⟨hkeys, hents⟩ := hwf
  unfold condErase
  by_cases hemp : ((condLookup post dest).erase chunk).isEmpty
  · rw [if_pos hemp]
    unfold finalPost
    rw [filterMap_filter_fuse]
    apply List.filterMap_congr
    intro e he
    dsimp only
    by_cases hd : e.1 = dest
    · have hlook : condLookup post dest = e.2 := by
        rw [← hd]
        exact condLookup_of_mem_wf hkeys he
      have hsingle : ∀ c' ∈ e.2, c' = chunk := by
        intro c' hc'
        by_contra hne
        have hmem' : c' ∈ (condLookup post dest).erase chunk := by
          rw [hlook]
          exact ((hents e he).2.mem_erase_iff).mpr ⟨hne, hc'⟩
        rw [List.isEmpty_iff] at hemp
        rw [hemp] at hmem'
        cases hmem'
      have hfl : e.2.filter (fun c' => !(condMem q e.1 c' && pr e.1 c')) = [] := by
        rw [List.filter_eq_nil_iff]
        intro c' hc'
        rw [hsingle c' hc', hd, hmem, hpr]
        simp
      rw [hfl]
      have hpd : (decide (e.1 = dest)) = true := by
        rw [decide_eq_true_eq]
        exact hd
      rw [hpd]
      simp
    · have hpd : (decide (e.1 = dest)) = false := by
        rw [decide_eq_false_iff_not]
        exact hd
      rw [hpd]
      simp only [Bool.not_false, if_true]
      have hfil : e.2.filter (fun c' => !(condMem q e.1 c' && pr e.1 c'))
          = e.2.filter (fun c' => !(condMem q' e.1 c' && pr e.1 c')) := by
        apply List.filter_congr
        intro c' hc'
        rw [hq' e.1 c', hpd]
        simp
      rw [hfil]
  · rw [if_neg hemp]
    unfold finalPost
    rw [List.filterMap_map]
    apply List.filterMap_congr
    intro e he
    simp only [Function.comp_apply]
    by_cases hd : e.1 = dest
    · have hlook : condLookup post dest = e.2 := by
        rw [← hd]
        exact condLookup_of_mem_wf hkeys he
      rw [if_pos hd]
      dsimp only
      have hfil : e.2.filter (fun c' => !(condMem q e.1 c' && pr e.1 c'))
          = ((condLookup post dest).erase chunk).filter
              (fun c' => !(condMem q' dest c' && pr dest c')) := by
        rw [hlook, List.Nodup.erase_eq_filter (hents e he).2 chunk, List.filter_filter]
        apply List.filter_congr
        intro c' hc'
        by_cases hcc : c' = chunk
        · rw [hcc, hd, hmem, hpr]
          simp
        · rw [hq' dest c']
          have h1 : (c' != chunk) = true := by
            simp [hcc]
          have h2 : decide (c' = chunk) = false := by
            rw [decide_eq_false_iff_not]
            exact hcc
          rw [h1, h2, hd]
          simp
      rw [hd] at hfil ⊢
      rw [hfil]
    · rw [if_neg hd]
      have hfil : e.2.filter (fun c' => !(condMem q e.1 c' && pr e.1 c'))
          = e.2.filter (fun c' => !(condMem q' e.1 c' && pr e.1 c')) := by
        apply List.filter_congr
        intro c' hc'
        rw [hq' e.1 c']
        have h1 : decide (e.1 = dest) = false := by
          rw [decide_eq_false_iff_not]
          exact hd
        rw [h1]
        simp
      rw [hfil]

/-- An empty final postcondition means every pair of the live postcondition
was matched at the event. -/
theorem finalPost_nil_entry {q : Cond} {pr : Nat → Nat → Bool} {post : Cond}
    (h : finalPost q pr post = []) : ∀ e ∈ post, ∀ c ∈ e.2,
      (condMem q e.1 c && pr e.1 c) = true := by
  intro e he c hc
  unfold finalPost at h
  have h2 := List.filterMap_eq_nil_iff.mp h e he
  dsimp only at h2
  by_cases hemp : ((e.2.filter (fun c' => !(condMem q e.1 c' && pr e.1 c'))).isEmpty = true)
  · rw [List.isEmpty_iff] at hemp
    have h3 := List.filter_eq_nil_iff.mp hemp c hc
    simpa using h3
  · rw [if_neg hemp] at h2
    cases h2

/-- The keys of a final postcondition form a subsequence of the original
keys. -/
theorem finalPost_keys_sublist (q : Cond) (pr : Nat → Nat → Bool) :
    ∀ post : Cond, List.Sublist ((finalPost q pr post).map Prod.fst)
      (post.map Prod.fst) := by
  intro post
  induction post with
  | nil => exact List.Sublist.refl _
  | cons e t ih =>
    unfold finalPost at ih ⊢
    rw [List.filterMap_cons]
    dsimp only
    by_cases hemp : ((e.2.filter (fun c => !(condMem q e.1 c && pr e.1 c))).isEmpty = true)
    · rw [if_pos hemp]
      rw [List.map_cons]
      exact ih.trans (List.sublist_cons_self _ _)
    · rw [if_neg hemp]
      rw [List.map_cons, List.map_cons]
      exact ih.cons₂ _

/-- A final postcondition of a well-formed condition is well-formed. -/
theorem finalPost_wf {q : Cond} {pr : Nat → Nat → Bool} {post : Cond}
    (h : WfCond post) : WfCond (finalPost q pr post) := by
  obtain ⟨hkeys, hents⟩ := h
  constructor
  · exact (finalPost_keys_sublist q pr post).nodup hkeys
  · intro e' he'
    unfold finalPost at he'
    obtain ⟨e, he, hfe⟩ := List.mem_filterMap.mp he'
    dsimp only at hfe
    by_cases hemp : ((e.2.filter (fun c => !(condMem q e.1 c && pr e.1 c))).isEmpty = true)
    · rw [if_pos hemp] at hfe
      cases hfe
    · rw [if_neg hemp] at hfe
      have heq := Option.some.inj hfe
      rw [← heq]
      constructor
      · intro hnil
        dsimp only at hnil
        rw [hnil] at hemp
        exact hemp rfl
      · exact (hents e he).2.filter _

/-- The candidate-existence predicate depends only on link availability and
precondition membership. -/
theorem predB_congr {n : Nat} {conn : Nat → Nat → Bool} {t1 t2 : TEN}
    {P1 P2 : Nat → List Nat}
    (hav : ∀ s d, t1.linkAvailable s d = t2.linkAvailable s d)
    (hp : ∀ x c, c ∈ P1 x ↔ c ∈ P2 x) (dest chunk : Nat) :
    predB n conn t1 P1 dest chunk = predB n conn t2 P2 dest chunk := by
  unfold predB checkCandidateSourceNpus TEN.backtrackTEN
  have hbt : (List.range n).filter (fun s => conn s dest && t1.linkAvailable s dest)
      = (List.range n).filter (fun s => conn s dest && t2.linkAvailable s dest) := by
    apply List.filter_congr
    intro s _
    rw [hav s dest]
  rw [hbt]
  have hfl : ((List.range n).filter
        (fun s => conn s dest && t2.linkAvailable s dest)).filter
          (fun s => decide (chunk ∈ P1 s))
      = ((List.range n).filter
        (fun s => conn s dest && t2.linkAvailable s dest)).filter
          (fun s => decide (chunk ∈ P2 s)) := by
    apply List.filter_congr
    intro s _
    exact decide_eq_decide.mpr (hp s chunk)
  rw [hfl]

/-- Beam-state equivalence is reflexive. -/
theorem BEquiv_refl (b : BState) : BEquiv b b :=
  ⟨rfl, fun _ _ => Iff.rfl, fun _ _ => rfl, fun _ _ => rfl, rfl⟩

/-- The complete description of one beam's link-chunk matching loop: the final
postcondition follows the closed form `finalPost`, the TEN and the collective
time are untouched, every new match is stamped with the event time, a matchable
pair guarantees a match at the event time, and the final precondition gains
exactly the matched pairs. -/
theorem matchLoopB_main (n : Nat) (conn : Nat → Nat → Bool) (o : Nat → Nat) (T : Nat)
    (P0 : Nat → List Nat) :
    ∀ (fuel : Nat) (q : Cond) (b : BState) (ctr : Nat),
      condSize q ≤ fuel → WfCond q → WfCond b.post →
      (matchLoopB n conn o T P0 fuel q b ctr).1.post
          = finalPost q (predB n conn b.ten P0) b.post
      ∧ (matchLoopB n conn o T P0 fuel q b ctr).1.ten = b.ten
      ∧ (matchLoopB n conn o T P0 fuel q b ctr).1.collectiveTime = b.collectiveTime
      ∧ (∃ ms, (matchLoopB n conn o T P0 fuel q b ctr).1.result = b.result ++ ms
          ∧ ∀ m ∈ ms, m.time = T)
      ∧ ((∃ d c, condMem q d c = true ∧ predB n conn b.ten P0 d c = true) →
          ∃ m ∈ (matchLoopB n conn o T P0 fuel q b ctr).1.result, m.time = T)
      ∧ (∀ x c, c ∈ (matchLoopB n conn o T P0 fuel q b ctr).1.pre x ↔
          c ∈ b.pre x ∨ (condMem q x c = true ∧ predB n conn b.ten P0 x c = true)) := by
  intro fuel
  induction fuel with
  | zero =>
    intro q b ctr hle hwfq hb
    have hq : q = [] := condSize_eq_zero (Nat.le_zero.mp hle)
    subst hq
    refine ⟨(finalPost_nilq hb).symm, rfl, rfl, ⟨[], by simp [matchLoopB], ?_⟩, ?_, ?_⟩
    · intro m hm
      cases hm
    · rintro ⟨d, c, hdc, _⟩
      simp [condMem] at hdc
    · intro x c
      simp [matchLoopB, condMem]
  | succ fuel ih =>
    intro q b ctr hle hwfq hb
    by_cases hqE : q.isEmpty
    · have hq : q = [] := List.isEmpty_iff.mp hqE
      subst hq
      have hstep : matchLoopB n conn o T P0 (fuel + 1) [] b ctr = (b, ctr) := by
        rw [matchLoopB]
        rfl
      rw [hstep]
      refine ⟨(finalPost_nilq hb).symm, rfl, rfl, ⟨[], by simp, ?_⟩, ?_, ?_⟩
      · intro m hm
        cases hm
      · rintro ⟨d, c, hdc, _⟩
        simp [condMem] at hdc
      · intro x c
        simp [condMem]
    · have hq0 : q ≠ [] := by
        intro h
        rw [h] at hqE
        exact hqE rfl
      rcases hsel : selectPostcondition o ctr q with ⟨dest, chunk, q', ctr'⟩
      obtain ⟨hlt, hwf', hmem, hq'⟩ :=
        selectPostcondition_spec o ctr q hq0 hwfq dest chunk q' ctr' hsel
      have hfe : condSize q' ≤ fuel := by omega
      by_cases hc : (checkCandidateSourceNpus chunk P0
          (TEN.backtrackTEN n conn b.ten dest)).isEmpty
      · have hstep : matchLoopB n conn o T P0 (fuel + 1) q b ctr
            = matchLoopB n conn o T P0 fuel q' b ctr' := by
          rw [matchLoopB, if_neg hqE, hsel]
          dsimp only
          rw [if_pos hc]
        have hpr : predB n conn b.ten P0 dest chunk = false := by
          unfold predB
          rw [hc]
          rfl
        obtain ⟨ihpost, ihten, ihct, ⟨ms, ihres, ihmsT⟩, ihprog, ihpre⟩ :=
          ih q' b ctr' hfe hwf' hb
        rw [hstep]
        refine ⟨?_, ihten, ihct, ⟨ms, ihres, ihmsT⟩, ?_, ?_⟩
        · rw [ihpost]
          exact (finalPost_unmatch hpr hq').symm
        · rintro ⟨d, c, hdc, hpdc⟩
          have hne : (decide (d = dest) && decide (c = chunk)) = false := by
            by_contra hbb
            have hb2 : (decide (d = dest) && decide (c = chunk)) = true := by
              cases hx : (decide (d = dest) && decide (c = chunk))
              · exact absurd hx hbb
              · rfl
            rw [Bool.and_eq_true, decide_eq_true_eq, decide_eq_true_eq] at hb2
            obtain ⟨rfl, rfl⟩ := hb2
            rw [hpr] at hpdc
            cases hpdc
          refine ihprog ⟨d, c, ?_, hpdc⟩
          rw [hq' d c, hne]
          simp [hdc]
        · intro x c
          rw [ihpre x c]
          by_cases hdx : x = dest ∧ c = chunk
          · obtain ⟨h1, h2⟩ := hdx
            rw [h1, h2, hpr]
            simp
          · have hbb : (decide (x = dest) && decide (c = chunk)) = false := by
              rcases not_and_or.mp hdx with h | h
              · simp [h]
              · simp [h]
            rw [hq' x c, hbb]
            simp
      · rcases hss : selectSourceNpuB o ctr' (checkCandidateSourceNpus chunk P0
            (TEN.backtrackTEN n conn b.ten dest)) with ⟨src, ctr''⟩
        have hstep : matchLoopB n conn o T P0 (fuel + 1) q b ctr
            = matchLoopB n conn o T P0 fuel q'
                (markLinkChunkMatchB T src dest chunk b) ctr'' := by
          rw [matchLoopB, if_neg hqE, hsel]
          dsimp only
          rw [if_neg hc, hss]
        have hce : (checkCandidateSourceNpus chunk P0
            (TEN.backtrackTEN n conn b.ten dest)).isEmpty = false := by
          cases hx : (checkCandidateSourceNpus chunk P0
              (TEN.backtrackTEN n conn b.ten dest)).isEmpty
          · rfl
          · exact absurd hx hc
        have hpr : predB n conn b.ten P0 dest chunk = true := by
          unfold predB
          rw [hce]
          rfl
        have hten1 : (markLinkChunkMatchB T src dest chunk b).ten = b.ten := rfl
        have hct1 : (markLinkChunkMatchB T src dest chunk b).collectiveTime
            = b.collectiveTime := rfl
        have hwf1 : WfCond (markLinkChunkMatchB T src dest chunk b).post :=
          condErase_wf hb dest chunk
        obtain ⟨ihpost, ihten, ihct, ⟨ms, ihres, ihmsT⟩, ihprog, ihpre⟩ :=
          ih q' (markLinkChunkMatchB T src dest chunk b) ctr'' hfe hwf' hwf1
        rw [hstep]
        refine ⟨?_, ?_, ?_, ?_, ?_, ?_⟩
        · rw [ihpost, hten1]
          show finalPost q' (predB n conn b.ten P0) (condErase b.post dest chunk) = _
          exact (finalPost_match hb hmem hpr hq').symm
        · rw [ihten, hten1]
        · rw [ihct, hct1]
        · refine ⟨⟨chunk, src, dest, T⟩ :: ms, ?_, ?_⟩
          · rw [ihres]
            show (b.result ++ [⟨chunk, src, dest, T⟩]) ++ ms = _
            rw [List.append_assoc]
            rfl
          · intro m hm
            rcases List.mem_cons.mp hm with rfl | hm'
            · rfl
            · exact ihmsT m hm'
        · intro _
          refine ⟨⟨chunk, src, dest, T⟩, ?_, rfl⟩
          rw [ihres]
          show (⟨chunk, src, dest, T⟩ : BMatch) ∈ (b.result ++ [⟨chunk, src, dest, T⟩]) ++ ms
          simp
        · intro x c
          rw [ihpre x c, hten1]
          have hpre1 : c ∈ (markLinkChunkMatchB T src dest chunk b).pre x ↔
              c ∈ b.pre x ∨ (x = dest ∧ c = chunk) := by
            show c ∈ (if x = dest then (b.pre dest).insert chunk else b.pre x) ↔ _
            by_cases hdx : x = dest
            · rw [if_pos hdx, hdx]
              rw [List.mem_insert_iff]
              constructor
              · rintro (rfl | h)
                · exact Or.inr ⟨rfl, rfl⟩
                · exact Or.inl h
              · rintro (h | ⟨_, rfl⟩)
                · exact Or.inr h
                · exact Or.inl rfl
            · rw [if_neg hdx]
              constructor
              · exact Or.inl
              · rintro (h | ⟨rfl, _⟩)
                · exact h
                · exact absurd rfl hdx
          rw [hpre1]
          by_cases hdx : x = dest ∧ c = chunk
          · obtain ⟨h1, h2⟩ := hdx
            rw [h1, h2]
            simp [hmem, hpr]
          · have hbb : (decide (x = dest) && decide (c = chunk)) = false := by
              rcases not_and_or.mp hdx with h | h
              · simp [h]
              · simp [h]
            rw [hq' x c, hbb]
            constructor
            · rintro ((h | ⟨h1, h2⟩) | h)
              · exact Or.inl h
              · exact absurd ⟨h1, h2⟩ hdx
              · refine Or.inr ⟨?_, h.2⟩
                have := h.1
                simpa using this
            · rintro (h | h)
              · exact Or.inl (Or.inl h)
              · refine Or.inr ⟨?_, h.2⟩
                simp [h.1]

/-- Link-chunk matching sends equivalent beam states to equivalent beam
states, regardless of the random draws each consumed. -/
theorem linkChunkMatchingB_equiv {n : Nat} {conn : Nat → Nat → Bool} {o : Nat → Nat}
    {T : Nat} {b1 b2 : BState} (heq : BEquiv b1 b2) (hwf : WfCond b1.post)
    (c1 c2 : Nat) :
    BEquiv (linkChunkMatchingB n conn o T
        { b1 with ten := b1.ten.updateCurrentTime T } c1).1
      (linkChunkMatchingB n conn o T
        { b2 with ten := b2.ten.updateCurrentTime T } c2).1 := by
  obtain ⟨hpost, hpre, hbusy, hav, hct⟩ := heq
  have hwf2 : WfCond b2.post := by
    rw [← hpost]
    exact hwf
  have hl1 : linkChunkMatchingB n conn o T
      { b1 with ten := b1.ten.updateCurrentTime T } c1
      = matchLoopB n conn o T b1.pre (condSize b1.post) b1.post
          { b1 with ten := b1.ten.updateCurrentTime T } c1 := rfl
  have hl2 : linkChunkMatchingB n conn o T
      { b2 with ten := b2.ten.updateCurrentTime T } c2
      = matchLoopB n conn o T b2.pre (condSize b2.post) b2.post
          { b2 with ten := b2.ten.updateCurrentTime T } c2 := rfl
  obtain ⟨h1post, h1ten, h1ct, _, _, h1pre⟩ :=
    matchLoopB_main n conn o T b1.pre (condSize b1.post) b1.post
      { b1 with ten := b1.ten.updateCurrentTime T } c1 (le_refl _) hwf hwf
  obtain ⟨h2post, h2ten, h2ct, _, _, h2pre⟩ :=
    matchLoopB_main n conn o T b2.pre (condSize b2.post) b2.post
      { b2 with ten := b2.ten.updateCurrentTime T } c2 (le_refl _) hwf2 hwf2
  dsimp only at h1post h1ten h1ct h1pre h2post h2ten h2ct h2pre
  have hpredeq : predB n conn (b1.ten.updateCurrentTime T) b1.pre
      = predB n conn (b2.ten.updateCurrentTime T) b2.pre := by
    funext d c
    refine predB_congr ?_ hpre d c
    intro s d'
    show decide (b1.ten.busyUntil s d' ≤ T) = decide (b2.ten.busyUntil s d' ≤ T)
    rw [hbusy s d']
  refine ⟨?_, ?_, ?_, ?_, ?_⟩
  · rw [hl1, hl2, h1post, h2post, hpost, hpredeq]
  · intro x c
    rw [hl1, hl2, h1pre x c, h2pre x c, hpost, hpredeq]
    exact or_congr (hpre x c) Iff.rfl
  · intro s d
    rw [hl1, hl2, h1ten, h2ten]
    exact hbusy s d
  · intro s d
    rw [hl1, hl2, h1ten, h2ten]
    show decide (b1.ten.busyUntil s d ≤ T) = decide (b2.ten.busyUntil s d ≤ T)
    rw [hbusy s d]
  · rw [hl1, hl2, h1ct, h2ct]
    exact hct

/-- When no beam has completed, every beam produced by one event iteration is
the link-chunk matching image of one of the incoming beams. -/
theorem beamEvent_all_match (n : Nat) (conn : Nat → Nat → Bool) (o : Nat → Nat)
    (T : Nat) :
    ∀ (bs : List BState) (ctr : Nat),
      (∀ b ∈ bs, b.post ≠ []) →
      ∀ b' ∈ (beamEvent n conn o T bs ctr).1,
        ∃ b ∈ bs, ∃ c0, b' = (linkChunkMatchingB n conn o T
            { b with ten := b.ten.updateCurrentTime T } c0).1 := by
  intro bs
  induction bs with
  | nil =>
    intro ctr _ b' hb'
    rw [beamEvent] at hb'
    cases hb'
  | cons b rest ih =>
    intro ctr hne b' hb'
    rw [beamEvent] at hb'
    dsimp only at hb'
    have hbE : (!b.post.isEmpty) = true := by
      have h0 := hne b (List.mem_cons_self b rest)
      rw [Bool.not_eq_true']
      rw [List.isEmpty_eq_false]
      exact h0
    rw [if_pos hbE] at hb'
    rcases List.mem_cons.mp hb' with rfl | hmem
    · exact ⟨b, List.mem_cons_self b rest, ctr, rfl⟩
    · obtain ⟨b0, hb0, c0, heq⟩ :=
        ih _ (fun x hx => hne x (List.mem_cons_of_mem b hx)) b' hmem
      exact ⟨b0, List.mem_cons_of_mem b hb0, c0, heq⟩

/-- The completion behaviour of the beam synthesizer's main loop: starting
from equivalent, incomplete, well-formed beams with zero collective times, a
completed run ends with every beam empty, every collective time set to the
final popped time, and that time equal to the time of each beam's last
recorded match. -/
theorem runB_completes (n : Nat) (conn : Nat → Nat → Bool) (o : Nat → Nat)
    (delays : List Nat) :
    ∀ (fuel : Nat) (bs : List BState) (time : Nat) (queue : List Nat) (ctr : Nat)
      (bsF : List BState) (T : Nat),
      List.Sorted (· < ·) queue →
      (∀ x ∈ queue, time ≤ x) →
      (∀ b1 ∈ bs, ∀ b2 ∈ bs, BEquiv b1 b2) →
      (∀ b ∈ bs, WfCond b.post) →
      (∀ b ∈ bs, b.post ≠ []) →
      (∀ b ∈ bs, b.collectiveTime = 0) →
      (∀ b ∈ bs, ∀ m ∈ b.result, m.time ≤ time) →
      runB n conn o delays fuel bs time queue ctr = some (bsF, T) →
      ∀ b ∈ bsF, b.post = [] ∧ b.collectiveTime = T ∧
        (∃ m ∈ b.result, m.time = T) ∧ ∀ m ∈ b.result, m.time ≤ T := by
  intro fuel
  induction fuel with
  | zero =>
    intro bs time queue ctr bsF T _ _ _ _ _ _ _ hrun
    simp [runB] at hrun
  | succ fuel ih =>
    intro bs time queue ctr bsF T hsort hqt hEq hWf hNe hCt hMt hrun
    rcases queue with _ | ⟨t, rest⟩
    · simp [runB] at hrun
    · rw [runB] at hrun
      dsimp only at hrun
      rcases hev : beamEvent n conn o t bs ctr with ⟨bs', ctr'⟩
      rw [hev] at hrun
      dsimp only at hrun
      have htime : time ≤ t := hqt t (List.mem_cons_self t rest)
      have hmembs' : ∀ b' ∈ bs', ∃ b ∈ bs, ∃ c0,
          b' = (linkChunkMatchingB n conn o t
            { b with ten := b.ten.updateCurrentTime t } c0).1 := by
        intro b' hb'
        refine beamEvent_all_match n conn o t bs ctr hNe b' ?_
        rw [hev]
        exact hb'
      have hbs' : ∀ b' ∈ bs',
          WfCond b'.post ∧ b'.collectiveTime = 0 ∧
          (∀ m ∈ b'.result, m.time ≤ t) ∧
          (b'.post = [] → ∃ m ∈ b'.result, m.time = t) := by
        intro b' hb'
        obtain ⟨b0, hb0, c0, rfl⟩ := hmembs' b' hb'
        have hwf0 := hWf b0 hb0
        have hlc : linkChunkMatchingB n conn o t
            { b0 with ten := b0.ten.updateCurrentTime t } c0
            = matchLoopB n conn o t b0.pre (condSize b0.post) b0.post
                { b0 with ten := b0.ten.updateCurrentTime t } c0 := rfl
        obtain ⟨hpostF, htenF, hctF, ⟨ms, hresF, hmsT⟩, hprogF, _⟩ :=
          matchLoopB_main n conn o t b0.pre (condSize b0.post) b0.post
            { b0 with ten := b0.ten.updateCurrentTime t } c0 (le_refl _) hwf0 hwf0
        dsimp only at hpostF hctF hresF
        refine ⟨?_, ?_, ?_, ?_⟩
        · rw [hlc, hpostF]
          exact finalPost_wf hwf0
        · rw [hlc, hctF]
          exact hCt b0 hb0
        · intro m hm
          rw [hlc, hresF] at hm
          rcases List.mem_append.mp hm with hold | hnew
          · exact le_trans (hMt b0 hb0 m hold) htime
          · exact le_of_eq (hmsT m hnew)
        · intro hempty
          rw [hlc] at hempty ⊢
          rw [hpostF] at hempty
          have hall := finalPost_nil_entry hempty
          obtain ⟨e, he⟩ := List.exists_mem_of_ne_nil b0.post (hNe b0 hb0)
          obtain ⟨c, hcmem⟩ := List.exists_mem_of_ne_nil e.2 (hwf0.2 e he).1
          have hpair := hall e he c hcmem
          rw [Bool.and_eq_true] at hpair
          exact hprogF ⟨e.1, c, hpair.1, hpair.2⟩
      have hEq' : ∀ b1' ∈ bs', ∀ b2' ∈ bs', BEquiv b1' b2' := by
        intro b1' hb1' b2' hb2'
        obtain ⟨a1, ha1, c1, rfl⟩ := hmembs' b1' hb1'
        obtain ⟨a2, ha2, c2, rfl⟩ := hmembs' b2' hb2'
        exact linkChunkMatchingB_equiv (hEq a1 ha1 a2 ha2) (hWf a1 ha1) c1 c2
      by_cases hall : (bs'.all fun b => b.post.isEmpty) = true
      · rw [if_pos hall] at hrun
        have hpair := Option.some.inj hrun
        injection hpair with h1 h2
        subst h2
        subst h1
        intro b hb
        obtain ⟨b', hb', rfl⟩ := List.mem_map.mp hb
        have hfacts := hbs' b' hb'
        have hct0 : b'.collectiveTime = 0 := hfacts.2.1
        have hbe : b'.post = [] :=
          List.isEmpty_iff.mp (List.all_eq_true.mp hall b' hb')
        rw [if_pos hct0]
        exact ⟨hbe, rfl, hfacts.2.2.2 hbe, hfacts.2.2.1⟩
      · rw [if_neg hall] at hrun
        have hall' : bs'.all (fun b => b.post.isEmpty) = false := by
          cases hx : bs'.all (fun b => b.post.isEmpty)
          · rfl
          · exact absurd hx hall
        obtain ⟨bw, hbw, hbwE⟩ := List.all_eq_false.mp hall'
        have hNe' : ∀ b' ∈ bs', b'.post ≠ [] := by
          intro b' hb' h0
          have hpe : b'.post = bw.post := (hEq' b' hb' bw hbw).1
          rw [h0] at hpe
          rw [← hpe] at hbwE
          exact hbwE rfl
        have hsrest : List.Sorted (· < ·) rest := (List.sorted_cons.mp hsort).2
        refine ih bs' t (delays.foldl (fun qu dl => scheduleEvent (t + dl) qu) rest)
          ctr' bsF T (sorted_foldl_schedule t delays rest hsrest) ?_ hEq'
          (fun b hb => (hbs' b hb).1) hNe' (fun b hb => (hbs' b hb).2.1)
          (fun b hb => (hbs' b hb).2.2.1) hrun
        intro x hx
        rcases mem_foldl_schedule t delays rest x hx with h | h
        · exact h
        · exact le_of_lt ((List.sorted_cons.mp hsort).1 x h)

/-- C5: when `BeamSynthesizer::synthesize` completes, every beam's working
postcondition has emptied at the final popped event time `T`, every beam
result's collective time — still 0 until then, since the beams evolve
identically and none completes before the others — is set to that `T`, and `T`
is the event time of that beam's last recorded match: a match was recorded at
`T` and no recorded match is later. -/
theorem beam_collective_time (n : Nat) (conn : Nat → Nat → Bool)
    (delay : Nat → Nat → Nat) (o : Nat → Nat) (K fuel : Nat)
    (pre : Nat → List Nat) (post : Cond) (hwf : WfCond post) (hpost : post ≠ [])
    (res : BState) (bs : List BState) (T : Nat)
    (hrun : beamSynthesize n conn delay o K fuel pre post = some (res, bs, T)) :
    ∀ b ∈ bs, b.post = [] ∧ b.collectiveTime = T ∧
      (∃ m ∈ b.result, m.time = T) ∧ ∀ m ∈ b.result, m.time ≤ T := by
  unfold beamSynthesize at hrun
  dsimp only at hrun
  rcases hr : runB n conn o (distinctLinkDelays n conn delay) fuel
      (List.replicate K ⟨pre, post, ⟨fun _ _ => 0, fun _ _ => false⟩, 0, []⟩) 0
      ((distinctLinkDelays n conn delay).foldl
        (fun qu dl => scheduleEvent (0 + dl) qu) []) 0 with _ | ⟨bs0, T0⟩
  · rw [hr] at hrun
    cases hrun
  · rw [hr] at hrun
    dsimp only at hrun
    rcases bs0 with _ | ⟨b0, rest0⟩
    · cases hrun
    · dsimp only at hrun
      have hp := Option.some.inj hrun
      injection hp with h1 h2
      injection h2 with h2a h2b
      subst h2b
      rw [← h2a]
      have hEqI : ∀ b1 ∈ List.replicate K
            (⟨pre, post, ⟨fun _ _ => 0, fun _ _ => false⟩, 0, []⟩ : BState),
          ∀ b2 ∈ List.replicate K
            (⟨pre, post, ⟨fun _ _ => 0, fun _ _ => false⟩, 0, []⟩ : BState),
          BEquiv b1 b2 := by
        intro b1 hb1 b2 hb2
        rw [List.eq_of_mem_replicate hb1, List.eq_of_mem_replicate hb2]
        exact BEquiv_refl _
      have hWfI : ∀ b ∈ List.replicate K
            (⟨pre, post, ⟨fun _ _ => 0, fun _ _ => false⟩, 0, []⟩ : BState),
          WfCond b.post := by
        intro b hb
        rw [List.eq_of_mem_replicate hb]
        exact hwf
      have hNeI : ∀ b ∈ List.replicate K
            (⟨pre, post, ⟨fun _ _ => 0, fun _ _ => false⟩, 0, []⟩ : BState),
          b.post ≠ [] := by
        intro b hb
        rw [List.eq_of_mem_replicate hb]
        exact hpost
      have hCtI : ∀ b ∈ List.replicate K
            (⟨pre, post, ⟨fun _ _ => 0, fun _ _ => false⟩, 0, []⟩ : BState),
          b.collectiveTime = 0 := by
        intro b hb
        rw [List.eq_of_mem_replicate hb]
      have hMtI : ∀ b ∈ List.replicate K
            (⟨pre, post, ⟨fun _ _ => 0, fun _ _ => false⟩, 0, []⟩ : BState),
          ∀ m ∈ b.result, m.time ≤ 0 := by
        intro b hb m hm
        rw [List.eq_of_mem_replicate hb] at hm
        cases hm
      exact runB_completes n conn o (distinctLinkDelays n conn delay) fuel
        (List.replicate K ⟨pre, post, ⟨fun _ _ => 0, fun _ _ => false⟩, 0, []⟩) 0
        ((distinctLinkDelays n conn delay).foldl
          (fun qu dl => scheduleEvent (0 + dl) qu) []) 0 (b0 :: rest0) T0
        (sorted_foldl_schedule 0 (distinctLinkDelays n conn delay) [] List.sorted_nil)
        (fun x _ => Nat.zero_le x) hEqI hWfI hNeI hCtI hMtI hr

/-- The C5 property evaluated on the ring all-gather with two beams: the run
completes, and both beam results carry the final popped time as collective
time, equal to their last match's event time. -/
theorem beam_collective_time_witness :
    WfCond ringPost ∧ ringPost ≠ [] ∧ c5run.2.1.length = 2 ∧
    ∀ b ∈ c5run.2.1, b.post = [] ∧ b.collectiveTime = c5run.2.2 ∧
      (∃ m ∈ b.result, m.time = c5run.2.2) ∧ ∀ m ∈ b.result, m.time ≤ c5run.2.2 :=
  ⟨by unfold WfCond; decide, by decide, rfl,
    beam_collective_time 3 ringConn ringDelay (fun k => k - k) 2 6 ringPre ringPost
      (by unfold WfCond; decide) (by decide) c5run.1 c5run.2.1 c5run.2.2 rfl⟩

end Tacos
